import Mathlib

/-
Verification development for the sleeper-pre-draft extension.

The file shallowly embeds the core logic of the repository:
  * the name-matching module (diacritic folding, pattern construction,
    the JavaScript regular-expression fragment that the module generates,
    player matching, confidence scoring, best-match selection, batch
    resolution) from src/unnamed/part_000,
  * the queue clearing loop and the player-name extraction heuristic from
    src/content-sleeper.js,
  * the roster fetch/cache fallback from src/sleeper-api.js.

Strings are modelled as Lean strings (lists of unicode scalar values);
JavaScript string operations used by the code are reproduced on that
representation.  Exceptions are modelled with Option: a result of none
means the JavaScript code would throw.  Numeric confidence scores are
modelled as rationals; every arithmetic fact proved here (bounds by 0, 1/2
and 1, exactness of 1.0) is insensitive to the difference between
rationals and IEEE doubles for these particular constant sums.
-/

/-! ## Character helpers -/

/-- ASCII lower-casing of a single character, as used by the case-insensitive
regular-expression flag and by String.prototype.toLowerCase on ASCII data. -/
def lowerChar (c : Char) : Char :=
  if c.toNat ≥ 65 ∧ c.toNat ≤ 90 then Char.ofNat (c.toNat + 32) else c

/-- Case-insensitive character comparison (the canonicalisation performed by
the i flag, restricted to ASCII case folding). -/
def ciEq (a b : Char) : Bool := lowerChar a = lowerChar b

/-- JavaScript \s for the whitespace characters that actually occur in the
extension's inputs. -/
def jsIsSpace (c : Char) : Bool :=
  c = ' ' ∨ c = '\t' ∨ c = '\n' ∨ c = '\r' ∨ c = '\x0b' ∨ c = '\x0c'

/-- String.prototype.toLowerCase, modelled for ASCII letters (non-ASCII
letters are left unchanged; no input evaluated in this file contains
non-ASCII letters at the points where this function is applied). -/
def jsToLower (s : String) : String := ⟨s.data.map lowerChar⟩

/-! ## Diacritic folding (asciiToDiacritic / asciiLookup / asciiFold in
src/unnamed/part_000) -/

/-- The asciiToDiacritic table, in the object's insertion order. -/
def asciiToDiacritic : List (String × String) :=
  [("A", "ÀÁÂÄÃÅĀ"), ("AE", "Æ"),
   ("C", "ÇĆČ"), ("E", "ÈÉÊËĒĖĘ"),
   ("I", "ÎÏÍĪĮÌ"), ("L", "Ł"),
   ("N", "ÑŃ"), ("O", "ÔÖÒÓØŌÕ"),
   ("OE", "Œ"), ("S", "ŚŠ"),
   ("U", "ÛÜÙÚŪ"), ("Y", "Ÿ"),
   ("Z", "ŽŹŻ"), ("a", "àáâäãå"),
   ("ae", "æ"), ("c", "çćč"),
   ("e", "èéêëēėę"), ("i", "îïíīįì"),
   ("l", "ł"), ("n", "ñń"),
   ("o", "ôöòóøōõ"), ("oe", "œ"),
   ("s", "śš"), ("ss", "ß"),
   ("u", "ûüùúū"), ("y", "ÿ"),
   ("z", "žźż")]

/-- The flattened (diacritic character, ascii replacement) pairs in the order
in which the JavaScript loop inserts them into asciiLookup. -/
def asciiLookupPairs : List (Char × String) :=
  asciiToDiacritic.flatMap (fun kv => kv.2.data.map (fun c => (c, kv.1)))

/-- asciiLookup: later insertions overwrite earlier ones, hence the lookup on
the reversed pair list. -/
def asciiLookup (c : Char) : Option String :=
  (asciiLookupPairs.reverse.find? (fun p => p.1 = c)).map (fun p => p.2)

/-- The replacement performed for one character by
str.replace(non-ASCII regex, match => asciiLookup[match] || match):
ASCII characters are untouched; non-ASCII characters are replaced by their
table entry when present and non-empty, and pass through otherwise. -/
def foldChar (c : Char) : List Char :=
  if c.toNat ≤ 0x7f then [c]
  else
    match asciiLookup c with
    | some r => if r = "" then [c] else r.data
    | none => [c]

/-- asciiFold from src/unnamed/part_000. -/
def asciiFold (s : String) : String := ⟨s.data.flatMap foldChar⟩

/-! ## The regular-expression fragment generated by the name matcher

nameToRegex builds pattern strings and compiles them with new RegExp(p, "i").
The fragment of JavaScript regular expressions reachable from those pattern
strings (literals, escapes, character classes, groups, alternation, the
greedy quantifiers ?, * and +, the anchors and the dot) is embedded below.
All compiled patterns carry the i flag, so case-insensitive comparison is
baked into the matcher. -/

/-- An item of a character class: a single character or a range. -/
inductive ClsIt where
  | ch : Char → ClsIt
  | range : Char → Char → ClsIt
deriving DecidableEq, Repr

/-- Abstract syntax of the embedded regular-expression fragment. -/
inductive RE where
  | eps : RE
  | lit : Char → RE
  | cls : Bool → List ClsIt → RE
  | dot : RE
  | bol : RE
  | eol : RE
  | seq : RE → RE → RE
  | alt : RE → RE → RE
  | opt : RE → RE
  | star : RE → RE
deriving DecidableEq, Repr

/-- The other-case variant of a character (for case-insensitive ranges). -/
def flipCase (c : Char) : Char :=
  if c.toNat ≥ 65 ∧ c.toNat ≤ 90 then Char.ofNat (c.toNat + 32)
  else if c.toNat ≥ 97 ∧ c.toNat ≤ 122 then Char.ofNat (c.toNat - 32)
  else c

/-- Does a class item accept a character (case-insensitively)? -/
def clsItMatch (it : ClsIt) (c : Char) : Bool :=
  match it with
  | .ch d => ciEq c d
  | .range a b =>
      (a.toNat ≤ c.toNat ∧ c.toNat ≤ b.toNat) ∨
      (a.toNat ≤ (flipCase c).toNat ∧ (flipCase c).toNat ≤ b.toNat)

/-- Does a (possibly negated) class accept a character? -/
def clsMatch (neg : Bool) (its : List ClsIt) (c : Char) : Bool :=
  let m := its.any (fun it => clsItMatch it c)
  if neg then !m else m

/-- Line terminators, which the dot does not match. -/
def isLineTerm (c : Char) : Bool :=
  c = '\n' ∨ c = '\r' ∨ c.toNat = 0x2028 ∨ c.toNat = 0x2029

/-- Backtracking continuations of a greedy repetition: the body runner f is
iterated as long as it consumes input (a repetition whose body matches the
empty string stops, as in the ECMAScript RepeatMatcher), deeper iterations
first (greedy), with the zero-further-iterations state last. -/
def runStar (f : ℕ → List Char → List (ℕ × List Char)) :
    ℕ → ℕ → List Char → List (ℕ × List Char)
  | 0, p, cs => [(p, cs)]
  | fuel+1, p, cs =>
      ((f p cs).filter (fun pr => pr.2.length < cs.length)).flatMap
        (fun pr => runStar f fuel pr.1 pr.2) ++ [(p, cs)]

/-- The matcher: all ways (in the ECMAScript backtracking preference order)
for a regular expression to match a prefix of cs, where p is the absolute
position of cs in the subject string (needed by the ^ anchor).  Each result
is the position after the match together with the unconsumed suffix. -/
def reRun : RE → ℕ → List Char → List (ℕ × List Char)
  | .eps, p, cs => [(p, cs)]
  | .lit d, p, cs =>
      match cs with
      | [] => []
      | c :: r => if ciEq c d then [(p+1, r)] else []
  | .cls n its, p, cs =>
      match cs with
      | [] => []
      | c :: r => if clsMatch n its c then [(p+1, r)] else []
  | .dot, p, cs =>
      match cs with
      | [] => []
      | c :: r => if isLineTerm c then [] else [(p+1, r)]
  | .bol, p, cs => if p = 0 then [(p, cs)] else []
  | .eol, p, cs => if cs.isEmpty then [(p, cs)] else []
  | .seq a b, p, cs =>
      (reRun a p cs).flatMap (fun pr => reRun b pr.1 pr.2)
  | .alt a b, p, cs => reRun a p cs ++ reRun b p cs
  | .opt a, p, cs => reRun a p cs ++ [(p, cs)]
  | .star a, p, cs => runStar (fun q ds => reRun a q ds) (cs.length + 1) p cs

/-- The scan performed by String.prototype.match / RegExp.prototype.exec:
try successive start positions and report the first position at which the
expression matches, together with the length of the (first, i.e. preferred)
match found there. -/
def searchFrom (r : RE) : ℕ → List Char → Option (ℕ × ℕ)
  | p, [] =>
      match reRun r p [] with
      | pr :: _ => some (p, List.length ([] : List Char) - pr.2.length)
      | [] => none
  | p, c :: t =>
      match reRun r p (c :: t) with
      | pr :: _ => some (p, (c :: t).length - pr.2.length)
      | [] => searchFrom r (p+1) t

/-- Position and length of the match of r in cs, if any. -/
def reSearchPos (r : RE) (cs : List Char) : Option (ℕ × ℕ) :=
  searchFrom r 0 cs

/-! ## Parsing pattern strings (the work done by new RegExp(p, "i"))

The parser accepts exactly the fragment described above and fails (none)
on pattern strings that new RegExp would reject with a SyntaxError, e.g.
an unbalanced group or an unterminated class.  A handful of constructs
that new RegExp would accept but that no pattern reachable from the
repository's inputs contains (lazy quantifiers, \d-style escape classes,
braced repetition counts, lookaround groups, backreferences) are also
rejected; no theorem below evaluates the parser on such a pattern. -/

/-- Is a character one of the postfix quantifiers? -/
def isQuant (c : Char) : Bool := c = '?' ∨ c = '*' ∨ c = '+'

/-- Characters that cannot start an atom inside a sequence. -/
def isSeqStop (c : Char) : Bool := c = ')' ∨ c = '|'

/-- Parse the body of a character class, after the opening bracket and the
optional negation mark; returns the items and the input after the closing
bracket. -/
def parseCls : List Char → Option (List ClsIt × List Char)
  | [] => none
  | ']' :: rest => some ([], rest)
  | '\\' :: c :: rest =>
      if c.isAlphanum then none
      else (parseCls rest).map (fun pr => (ClsIt.ch c :: pr.1, pr.2))
  | '\\' :: [] => none
  | c :: '-' :: d :: rest =>
      if d = ']' then some ([ClsIt.ch c, ClsIt.ch '-'], rest)
      else if d = '\\' then none
      else (parseCls rest).map (fun pr => (ClsIt.range c d :: pr.1, pr.2))
  | c :: rest => (parseCls rest).map (fun pr => (ClsIt.ch c :: pr.1, pr.2))

/-- Right-nested sequencing of a term list. -/
def seqFold (ts : List RE) : RE := ts.foldr RE.seq RE.eps

/-- Parse one atom; pAlt parses a full alternation (used for the body of a
group). -/
def parseAtomF (pAlt : List Char → Option (RE × List Char)) :
    List Char → Option (RE × List Char)
  | [] => none
  | '(' :: rest =>
      match rest with
      | '?' :: _ => none
      | _ =>
          match pAlt rest with
          | some (r, ')' :: rest2) => some (r, rest2)
          | _ => none
  | '[' :: '^' :: rest =>
      (parseCls rest).map (fun pr => (RE.cls true pr.1, pr.2))
  | '[' :: rest =>
      (parseCls rest).map (fun pr => (RE.cls false pr.1, pr.2))
  | '\\' :: c :: rest => if c.isAlphanum then none else some (RE.lit c, rest)
  | '^' :: rest => some (RE.bol, rest)
  | '$' :: rest => some (RE.eol, rest)
  | '.' :: rest => some (RE.dot, rest)
  | c :: rest =>
      if isQuant c ∨ c = ')' ∨ c = '|' ∨ c = '\\' then none
      else some (RE.lit c, rest)

/-- Parse one term: an atom with an optional greedy quantifier. -/
def parseTermF (pAlt : List Char → Option (RE × List Char))
    (cs : List Char) : Option (RE × List Char) :=
  match parseAtomF pAlt cs with
  | none => none
  | some (a, rest) =>
      match rest with
      | '?' :: rest2 => some (RE.opt a, rest2)
      | '*' :: rest2 => some (RE.star a, rest2)
      | '+' :: rest2 => some (RE.seq a (RE.star a), rest2)
      | _ => some (a, rest)

/-- Parse a sequence of terms, stopping (without consuming) at a closing
bracket, an alternation bar or the end of input.  The fuel only has to
dominate the number of terms; callers pass the input length plus one. -/
def parseSeqL (pTerm : List Char → Option (RE × List Char)) :
    ℕ → List Char → Option (List RE × List Char)
  | _, [] => some ([], [])
  | fuel, c :: cs =>
      if isSeqStop c then some ([], c :: cs)
      else
        match fuel with
        | 0 => none
        | fuel2+1 =>
            match pTerm (c :: cs) with
            | none => none
            | some (t, rest) =>
                match parseSeqL pTerm fuel2 rest with
                | none => none
                | some (ts, rest2) => some (t :: ts, rest2)

/-- Parse an alternation.  The fuel only has to dominate the group nesting
depth plus the number of top-level alternatives; callers pass the input
length plus one. -/
def parseAlt : ℕ → List Char → Option (RE × List Char)
  | 0, _ => none
  | fuel+1, cs =>
      match parseSeqL (parseTermF (fun ds => parseAlt fuel ds))
          (cs.length + 1) cs with
      | none => none
      | some (ts, '|' :: rest2) =>
          match parseAlt fuel rest2 with
          | none => none
          | some (r2, rest3) => some (RE.alt (seqFold ts) r2, rest3)
      | some (ts, rest) => some (seqFold ts, rest)

/-- Compile a full pattern string, as new RegExp(pattern, "i") does: the
whole string must be consumed. -/
def parseRegex (s : String) : Option RE :=
  match parseAlt (s.length + 1) s.data with
  | some (r, []) => some r
  | _ => none

/-! ## Pattern construction (firstNamePatterns, nameRegexes, nameToRegex,
namesMatch in src/unnamed/part_000) -/

/-- The source strings of the firstNamePatterns list, in order. -/
def firstNameSrcs : List String :=
  ["^Alex(ander)? ",
   "^Ben(jamin)? ",
   "^Brad(ley)? ",
   "^Cam(eron)? ",
   "^Chris(topher)? ",
   "^Dan(iel)? ",
   "^Dav(e|id) ",
   "^Greg(ory)? ",
   "^Ja(ke|[ck]ob) ",
   "^Jo(e|seph) ",
   "^Jon(athan)? ",
   "^Josh(ua)? ",
   "^Ken(neth)? ",
   "^Matt(hew)? ",
   "^Mi(ke|chael) ",
   "^Mitch(ell)? ",
   "^Nat(e|han) ",
   "^Nic(ky?|holas) ",
   "^Nori(chika)? ",
   "^Rob(ert)? ",
   "^Ste(vi?e|phen) ",
   "^Vince(nt)? ",
   "^Wil(l(iam)?)? ",
   "^Yuli(eski)? "]

/-- The manual override table nameRegexes: exact (case-sensitive) key lookup
returning the source of the override pattern. -/
def overrideSrc (name : String) : Option String :=
  if name = "Corey Brown" then some "^(Corey|Philly) Brown"
  else if name = "Pierre-Alexandr Parenteau" then
    some "^Pierre-Alexandre? Parenteau"
  else if name = "Carl Edwards Jr." then
    some "^(Carl|C\\.J\\.) Edwards( Jr\\.)?"
  else if name = "Adalberto Mondesi" then some "^(Raul )?Adalberto Mondesi"
  else if name = "Michael A. Taylor" then some "^Michael (A\\. )?Taylor"
  else if name = "Mychal Givens" then some "^Mychal (Antonio )?Givens"
  else none

/-- One character of name.replace(regex over hyphen and period, a class that
makes the joint optionally present and optionally space-separated). -/
def replUnit (c : Char) : List Char :=
  if c = '-' ∨ c = '.' then ['[', ' ', '\\', c, ']', '?'] else [c]

/-- The full hyphen/period replacement applied to a name. -/
def replDotHyphen (cs : List Char) : List Char := cs.flatMap replUnit

/-- The loop over firstNamePatterns: find the first pattern that matches the
partially built pattern string and splice its source over the matched
segment (pattern.replace(f, f.source)). -/
def expandFirst : List String → List Char → Option (List Char)
  | [], _ => none
  | fsrc :: fs, pat =>
      match parseRegex fsrc with
      | none => expandFirst fs pat
      | some fr =>
          match reSearchPos fr pat with
          | some (p, n) =>
              some (pat.take p ++ fsrc.data ++ pat.drop (p + n))
          | none => expandFirst fs pat

/-- The pattern string built by nameToRegex for a name that has no manual
override: hyphen/period replacement, then first-name expansion, and a
start anchor when no expansion fired. -/
def buildPatternString (name : String) : List Char :=
  let pat := replDotHyphen name.data
  match expandFirst firstNameSrcs pat with
  | some newPat => newPat
  | none => '^' :: pat

/-- nameToRegex: manual override, else compile the built pattern string.
A result of none models new RegExp throwing a SyntaxError. -/
def nameToRegex (name : String) : Option RE :=
  match overrideSrc name with
  | some src => parseRegex src
  | none => parseRegex ⟨buildPatternString name⟩

/-- namesMatch from src/unnamed/part_000: fold both names, test the first
against the second's pattern and the second against the first's pattern.
none models a thrown exception; note that n1's pattern is compiled (and can
throw) before n0's is ever looked at, as in the JavaScript evaluation
order. -/
def namesMatch (a b : String) : Option Bool :=
  let n0 := asciiFold a
  let n1 := asciiFold b
  match nameToRegex n1 with
  | none => none
  | some r1 =>
      if (reSearchPos r1 n0.data).isSome then some true
      else
        match nameToRegex n0 with
        | none => none
        | some r0 =>
            if (reSearchPos r0 n1.data).isSome then some true else some false

/-! ## Player records and the identity resolution engine
(findPlayerMatches, calculateConfidence, findBestMatch, processPlayerList
in src/unnamed/part_000)

A roster is modelled as the list of (playerId, record) pairs in the order
in which Object.entries enumerates the player database.  JavaScript
falsiness of the string-valued fields (first_name, last_name, team) is
modelled by the empty string. -/

/-- A Sleeper player record (the fields the core reads). -/
structure Player where
  first_name : String
  last_name : String
  status : String
  team : String
  position : String
deriving DecidableEq, Repr

/-- The options object of findPlayerMatches with its destructuring
defaults captured by defaultOpts below. -/
structure MatchOptions where
  requireActive : Bool
  preferActive : Bool
  preferredPositions : Option (List String)
  requirePosition : Bool
deriving DecidableEq, Repr

/-- The defaults requireActive = true, preferActive = false,
preferredPositions = null, requirePosition = false. -/
def defaultOpts : MatchOptions := ⟨true, false, none, false⟩

/-- The fantasy-relevant position set of calculateConfidence. -/
def fantasyPositions : List String := ["QB", "RB", "WR", "TE", "K", "DEF"]

/-- calculateConfidence: 0.5 base, overwritten by 1.0 on a case-insensitive
exact full-name match, plus 0.2 for active status, 0.1 for a team, 0.15 for
a fantasy-relevant position, clamped from above at 1.0. -/
def calculateConfidence (searchName playerName : String) (p : Player) : ℚ :=
  let base : ℚ := 1/2
  let c1 := if jsToLower searchName = jsToLower playerName then 1 else base
  let c2 := if p.status = "Active" then c1 + 1/5 else c1
  let c3 := if p.team ≠ "" then c2 + 1/10 else c2
  let c4 := if fantasyPositions.contains p.position then c3 + 3/20 else c3
  min c4 1

/-- A match candidate: the spread player record plus playerId, fullName and
confidence. -/
structure MatchCand where
  player : Player
  playerId : String
  fullName : String
  confidence : ℚ
deriving DecidableEq, Repr

/-- The comparator passed to matches.sort. -/
def sortCmp (opts : MatchOptions) (a b : MatchCand) : ℚ :=
  if opts.preferActive ∧ a.player.status ≠ b.player.status then
    if a.player.status = "Active" ∧ b.player.status ≠ "Active" then -1
    else if b.player.status = "Active" ∧ a.player.status ≠ "Active" then 1
    else b.confidence - a.confidence
  else b.confidence - a.confidence

/-- a may stay before b exactly when the comparator does not order b
strictly first. -/
def sortLe (opts : MatchOptions) (a b : MatchCand) : Bool :=
  sortCmp opts a b ≤ 0

/-- Stable insertion into a sorted list: x goes in front of the first
element it need not follow, hence before equal elements that came later in
the original list. -/
def insertStable {α : Type} (le : α → α → Bool) (x : α) : List α → List α
  | [] => [x]
  | y :: ys => if le x y then x :: y :: ys else y :: insertStable le x ys

/-- Stable sort (the result ECMAScript's stable Array.prototype.sort is
required to produce for a consistent comparator). -/
def sortStable {α : Type} (le : α → α → Bool) : List α → List α
  | [] => []
  | x :: xs => insertStable le x (sortStable le xs)

/-- The filter-and-score loop body of findPlayerMatches, in roster order,
before sorting.  none propagates a thrown exception from namesMatch. -/
def collectMatches (searchName : String) (opts : MatchOptions) :
    List (String × Player) → Option (List MatchCand)
  | [] => some []
  | (pid, p) :: rest =>
      if p.first_name = "" ∨ p.last_name = "" then
        collectMatches searchName opts rest
      else if opts.requireActive ∧ p.status ≠ "Active" then
        collectMatches searchName opts rest
      else if opts.requirePosition &&
          (match opts.preferredPositions with
           | some l => !(l.contains p.position)
           | none => false) then
        collectMatches searchName opts rest
      else
        let fullName := p.first_name ++ " " ++ p.last_name
        match namesMatch searchName fullName with
        | none => none
        | some true =>
            (collectMatches searchName opts rest).map
              (fun ms =>
                ⟨p, pid, fullName,
                  calculateConfidence searchName fullName p⟩ :: ms)
        | some false => collectMatches searchName opts rest

/-- findPlayerMatches: collect matching candidates over the roster, then
sort by the comparator. -/
def findPlayerMatches (searchName : String) (players : List (String × Player))
    (opts : MatchOptions) : Option (List MatchCand) :=
  (collectMatches searchName opts players).map
    (fun ms => sortStable (sortLe opts) ms)

/-- The object findBestMatch returns: a candidate, optionally decorated
with alternatives and the needsDisambiguation flag (absent flag modelled
as false). -/
structure Best where
  cand : MatchCand
  alternatives : List MatchCand
  needsDisambiguation : Bool
deriving DecidableEq, Repr

/-- findBestMatch: outer none models a thrown exception, inner none models
the null result for an empty match list. -/
def findBestMatch (searchName : String) (players : List (String × Player))
    (opts : MatchOptions) : Option (Option Best) :=
  (findPlayerMatches searchName players opts).map
    (fun ms =>
      match ms with
      | [] => none
      | [m] => some ⟨m, [], false⟩
      | m1 :: m2 :: rest =>
          if m1.confidence > m2.confidence + 1/10 then some ⟨m1, [], false⟩
          else
            let act := (m1 :: m2 :: rest).filter
              (fun m => m.player.status = "Active")
            match act with
            | [a] => some ⟨a, [], false⟩
            | _ =>
                match act.filter (fun m => m.player.team ≠ "") with
                | [t] => some ⟨t, [], false⟩
                | _ => some ⟨m1, (m2 :: rest).take 2, true⟩)

/-- JavaScript String.prototype.trim on the whitespace alphabet above. -/
def jsTrim (s : String) : String :=
  ⟨((s.data.dropWhile jsIsSpace).reverse.dropWhile jsIsSpace).reverse⟩

/-- The four result buckets of processPlayerList.  An errors entry keeps the
index and the raw (untrimmed) name, as the catch branch does; the error
message is not modelled. -/
structure ProcessResults where
  matched : List (ℕ × String × Best)
  unmatched : List (ℕ × String)
  ambiguous : List (ℕ × String × Best × List MatchCand)
  errors : List (ℕ × String)
deriving DecidableEq, Repr

/-- The forEach body of processPlayerList, threading the element index. -/
def processAux (players : List (String × Player)) (opts : MatchOptions) :
    ℕ → List String → ProcessResults
  | _, [] => ⟨[], [], [], []⟩
  | i, name :: rest =>
      let r := processAux players opts (i+1) rest
      let cleanName := jsTrim name
      if cleanName = "" then r
      else
        match findBestMatch cleanName players opts with
        | none => ⟨r.matched, r.unmatched, r.ambiguous, (i, name) :: r.errors⟩
        | some none =>
            ⟨r.matched, (i, cleanName) :: r.unmatched, r.ambiguous, r.errors⟩
        | some (some b) =>
            if b.needsDisambiguation then
              ⟨r.matched, r.unmatched,
                (i, cleanName, b, b.alternatives) :: r.ambiguous, r.errors⟩
            else
              ⟨(i, cleanName, b) :: r.matched, r.unmatched, r.ambiguous,
                r.errors⟩

/-- processPlayerList from src/unnamed/part_000. -/
def processPlayerList (playerNames : List String)
    (players : List (String × Player)) (opts : MatchOptions) :
    ProcessResults :=
  processAux players opts 0 playerNames

/-- The number of outcomes across the four buckets. -/
def totalOutcomes (r : ProcessResults) : ℕ :=
  r.matched.length + r.unmatched.length + r.ambiguous.length + r.errors.length

/-! ## Queue text parsing: extractPlayerName (src/content-sleeper.js) -/

/-- Case-insensitive prefix test on character lists. -/
def startsWithCI : List Char → List Char → Bool
  | [], _ => true
  | _ :: _, [] => false
  | p :: ps, c :: cs => ciEq c p && startsWithCI ps cs

/-- replace over a whitespace run with a single space (the flag records
whether the previous character was whitespace). -/
def collapseWsAux : Bool → List Char → List Char
  | _, [] => []
  | prevSp, c :: cs =>
      if jsIsSpace c then
        if prevSp then collapseWsAux true cs
        else ' ' :: collapseWsAux true cs
      else c :: collapseWsAux false cs

/-- text.replace over whitespace runs, collapsing each to one space. -/
def collapseWs (cs : List Char) : List Char := collapseWsAux false cs

/-- text.replace(/REMOVE/gi, ""): drop every (leftmost, non-overlapping)
case-insensitive occurrence of REMOVE.  The fuel dominates the input
length. -/
def stripRemoveF : ℕ → List Char → List Char
  | 0, cs => cs
  | _+1, [] => []
  | fuel+1, c :: cs =>
      if startsWithCI "REMOVE".data (c :: cs) then
        stripRemoveF fuel (List.drop 5 cs)
      else c :: stripRemoveF fuel cs

/-- text.replace(/\s*$/, ""): drop the trailing whitespace run. -/
def stripTrailWs (cs : List Char) : List Char :=
  (cs.reverse.dropWhile jsIsSpace).reverse

/-- split on whitespace runs followed by filtering out empty tokens; the
accumulator holds the current token reversed. -/
def splitWsAux : List Char → List Char → List (List Char)
  | [], acc => if acc.isEmpty then [] else [acc.reverse]
  | c :: cs, acc =>
      if jsIsSpace c then
        if acc.isEmpty then splitWsAux cs []
        else acc.reverse :: splitWsAux cs []
      else splitWsAux cs (c :: acc)

/-- The nonempty whitespace-separated tokens of a character list. -/
def splitWs (cs : List Char) : List (List Char) := splitWsAux cs []

/-- Does a token look like a position abbreviation or a number
(the regex over QB, RB, WR, TE, K, DEF, DST and digit runs)? -/
def posOrNumToken (w : List Char) : Bool :=
  (["qb", "rb", "wr", "te", "k", "def", "dst"].map String.data).contains
      (w.map lowerChar) ||
    (!w.isEmpty && w.all Char.isDigit)

/-- The selection loop of extractPlayerName: walk the first words, skip
position/number lookalikes, stop as soon as two name words are kept. -/
def pickNameWords : List (List Char) → List (List Char) → List (List Char)
  | [], acc => acc
  | w :: ws, acc =>
      let acc2 := if posOrNumToken w then acc else acc ++ [w]
      if acc2.length ≥ 2 then acc2 else pickNameWords ws acc2

/-- Array.prototype.join(" "). -/
def joinSpace : List (List Char) → List Char
  | [] => []
  | [w] => w
  | w :: ws => w ++ ' ' :: joinSpace ws

/-- extractPlayerName from src/content-sleeper.js. -/
def extractPlayerName (text : String) : Option String :=
  let t1 := (jsTrim text).data
  let t2 := collapseWs t1
  let t3 := stripRemoveF t2.length t2
  let cleanText := stripTrailWs t3
  let words := splitWs cleanText
  if words.length ≥ 2 then
    let nameWords := pickNameWords (words.take 3) []
    if nameWords.length ≥ 2 then some ⟨joinSpace nameWords⟩
    else some ⟨joinSpace (words.take 2)⟩
  else none

/-! ## The clearQueue removal loop (src/content-sleeper.js, both copies)

The loop state that matters for the termination claim is the currently
scanned list of queued entries (here, their names), what the k-th re-scan
of the surface will return (the parameter rescan, which abstracts both the
surface and the outcome of the removal attempts), and the totalPlayers
count captured before the loop.  Per-iteration bookkeeping (success and
failure outcomes) does not influence control flow and is not modelled.
The pair returned is (number of iterations run, whether the loop exited)
within the given fuel. -/

def clearQueueLoop (rescan : ℕ → List String) (total : ℤ) :
    ℕ → ℕ → List String → ℕ × Bool
  | 0, _, _ => (0, false)
  | fuel+1, k, queued =>
      match queued with
      | [] => (0, true)
      | _ :: _ =>
          let currentIndex : ℤ := total - queued.length + 1
          let queued2 := rescan k
          if currentIndex ≥ total then (1, true)
          else
            let pr := clearQueueLoop rescan total fuel (k+1) queued2
            (pr.1 + 1, pr.2)

/-- clearQueue: early return when the initial scan is empty, else run the
removal loop with totalPlayers set to the initially observed count. -/
def clearQueue (initialScan : List String) (rescan : ℕ → List String)
    (fuel : ℕ) : ℕ × Bool :=
  if initialScan.isEmpty then (0, true)
  else clearQueueLoop rescan initialScan.length fuel 0 initialScan

/-! ## Roster provider: SleeperAPI.getPlayers (src/sleeper-api.js)

The single suspension point (the network fetch) is modelled by passing the
outcome the fetch would have had; Date.now() is the parameter now.  The
returned state carries the updated in-memory cache (the Chrome-storage
metadata write does not influence any result and is not modelled). -/

/-- One entry of the in-memory cache map. -/
structure ApiCacheEntry where
  data : List (String × Player)
  timestamp : ℤ
deriving DecidableEq, Repr

/-- The mutable state of a SleeperAPI instance that getPlayers reads. -/
structure ApiState where
  cache : Option ApiCacheEntry
deriving DecidableEq, Repr

/-- 24 hours in milliseconds. -/
def cacheExpiry : ℤ := 24 * 60 * 60 * 1000

/-- isCacheValid for the players key. -/
def isCacheValid (st : ApiState) (now : ℤ) : Bool :=
  match st.cache with
  | none => false
  | some c => now - c.timestamp < cacheExpiry

/-- getPlayers: serve a valid cache unless forced; otherwise fetch; on a
fetch failure fall back to any cached entry (even an expired one) and
propagate the error only when no cache exists. -/
def getPlayers (st : ApiState) (now : ℤ) (forceRefresh : Bool)
    (fetchResult : Except String (List (String × Player))) :
    Except String (List (String × Player) × ApiState) :=
  if ¬forceRefresh ∧ isCacheValid st now then
    match st.cache with
    | some c => .ok (c.data, st)
    | none => .error "cache entry missing"
  else
    match fetchResult with
    | .ok resp => .ok (resp, ⟨some ⟨resp, now⟩⟩)
    | .error e =>
        match st.cache with
        | some c => .ok (c.data, st)
        | none => .error e

/-! ## Auxiliary definitions used by the theorems below -/

/-- Characters with no structural meaning for the generated patterns:
ASCII letters, digits, the space, and the hyphen/period joints that
nameToRegex turns into optional-separator classes. -/
def plainChar (c : Char) : Bool :=
  decide ((65 ≤ c.toNat ∧ c.toNat ≤ 90) ∨ (97 ≤ c.toNat ∧ c.toNat ≤ 122) ∨
    (48 ≤ c.toNat ∧ c.toNat ≤ 57) ∨ c.toNat = 32 ∨ c.toNat = 45 ∨
    c.toNat = 46)

/-- The characters a first-name pattern can possibly consume: ASCII
letters and the space. -/
def goodChar (c : Char) : Bool :=
  decide ((65 ≤ c.toNat ∧ c.toNat ≤ 90) ∨ (97 ≤ c.toNat ∧ c.toNat ≤ 122) ∨
    c.toNat = 32)

/-- No end anchor inside a regular expression. -/
def noEol : RE → Bool
  | .eol => false
  | .seq a b => noEol a && noEol b
  | .alt a b => noEol a && noEol b
  | .opt a => noEol a
  | .star a => noEol a
  | _ => true

/-- No repetition inside a regular expression. -/
def noStar : RE → Bool
  | .star _ => false
  | .seq a b => noStar a && noStar b
  | .alt a b => noStar a && noStar b
  | .opt a => noStar a
  | _ => true

/-- Every character a regular expression can consume satisfies goodChar
(up to ASCII case).  dot and negated or range classes are excluded
outright. -/
def reLitsGood : RE → Bool
  | .lit c => goodChar c
  | .cls neg its =>
      !neg && its.all (fun it =>
        match it with
        | .ch c => goodChar c
        | .range _ _ => false)
  | .dot => false
  | .seq a b => reLitsGood a && reLitsGood b
  | .alt a b => reLitsGood a && reLitsGood b
  | .opt a => reLitsGood a
  | .star a => reLitsGood a
  | _ => true

/-- The top-level term list of a pattern source, when the source parses as
a bar-free sequence consuming the whole string (this mirrors exactly the
inner call parseRegex makes). -/
def srcTerms (s : String) : Option (List RE) :=
  match parseSeqL (parseTermF (fun ds => parseAlt s.length ds))
      (s.data.length + 1) s.data with
  | some (ts, []) => some ts
  | _ => none

/-- The well-formedness facts about a first-name pattern source that the
reflexivity proof consumes: it parses as a bar-free term list, starts with
the ^ anchor, and contains no end anchor, no repetition and only
letter/space literals. -/
def goodFirstSrc (s : String) : Bool :=
  match srcTerms s with
  | some ts =>
      (match ts with
       | RE.bol :: _ => true
       | _ => false) &&
      noEol (seqFold ts) && noStar (seqFold ts) && reLitsGood (seqFold ts)
  | none => false

/-- The term a single plain character contributes to the pattern built for
a name: hyphen and period become an optional separator class, everything
else a literal. -/
def replTerm (c : Char) : RE :=
  if c = '-' ∨ c = '.' then RE.opt (RE.cls false [ClsIt.ch ' ', ClsIt.ch c])
  else RE.lit c

/-- The term list the parser produces for replDotHyphen applied to a plain
name. -/
def replTerms (cs : List Char) : List RE := cs.map replTerm

/-- Exactly-one selector used to phrase the narrowing steps of the spec's
best-match policy. -/
def theOnly (l : List MatchCand) : Option MatchCand :=
  match l with
  | [x] => some x
  | _ => none

/-- The best-match selection policy in the spec's vocabulary, with the
narrowing steps ranging over all matched candidates: no candidate is no
match; a single candidate is a unique match; with several candidates the
top one wins outright when it beats the runner-up by more than 0.1,
otherwise an only active candidate wins, otherwise an only team-affiliated
candidate among the active ones wins, otherwise the result is ambiguous and
carries the top candidate plus at most two alternatives. -/
def specBestPolicy (ms : List MatchCand) : Option Best :=
  match ms with
  | [] => none
  | [m] => some ⟨m, [], false⟩
  | m1 :: m2 :: rest =>
      if m1.confidence > m2.confidence + 1/10 then some ⟨m1, [], false⟩
      else
        let act := (m1 :: m2 :: rest).filter
          (fun c => c.player.status = "Active")
        match theOnly act with
        | some a => some ⟨a, [], false⟩
        | none =>
            match theOnly (act.filter (fun c => c.player.team ≠ "")) with
            | some t => some ⟨t, [], false⟩
            | none => some ⟨m1, (m2 :: rest).take 2, true⟩

/-- A roster on which findBestMatch departs from the claimed tied-set
narrowing: two inactive exact homonyms dominate by confidence, and one
low-confidence active near-miss is the only active candidate. -/
def tiedRoster : List (String × Player) :=
  [("1", ⟨"Ann", "Smith", "IR", "", ""⟩),
   ("2", ⟨"Ann", "Smith", "IR", "", ""⟩),
   ("3", ⟨"Ann", "Smithson", "Active", "", ""⟩)]

/-- Options admitting inactive players (requireActive off, everything else
at its default). -/
def inactiveOpts : MatchOptions := ⟨false, false, none, false⟩

/-- A parser result with a nonempty remainder is stable under extending the
input beyond the remainder. -/
def keepsTail (p : List Char → Option (RE × List Char)) : Prop :=
  ∀ (cs s2 : List Char) (r : RE) (c : Char) (rest : List Char),
    p cs = some (r, c :: rest) → p (cs ++ s2) = some (r, c :: (rest ++ s2))

/-- A parser that succeeds on the empty input leaves an empty remainder. -/
def nilStops (p : List Char → Option (RE × List Char)) : Prop :=
  ∀ (r : RE) (rest : List Char), p [] = some (r, rest) → rest = []

/-- The head of a character list is not a postfix quantifier (vacuous for
the empty list). -/
def headNQ (s : List Char) : Prop :=
  ∀ (c : Char) (t : List Char), s = c :: t → isQuant c = false

/-- Pointwise refinement between two parsers: every success of the first is
a success of the second. -/
def leP (p q : List Char → Option (RE × List Char)) : Prop :=
  ∀ (cs : List Char) (r : RE × List Char), p cs = some r → q cs = some r

/-! ## Theorems -/

/-! ### C1: the clearQueue removal loop is not bounded by the initial count -/

lemma clearQueueLoop_stuck (fuel : ℕ) : ∀ k,
    clearQueueLoop (fun _ => ["A", "B"]) 2 fuel k ["A", "B"] = (fuel, false) := by
  induction fuel with
  | zero => intro k; rfl
  | succ n ih =>
      intro k
      simp only [clearQueueLoop, List.length_cons, List.length_nil]
      norm_num [ih (k+1)]

/-- Claim C1: refuted by the code.  When the initial scan finds two queued
entries and every re-scan keeps returning the same two entries (removals
keep failing), the loop's progress index stays at the value one forever,
the safety comparison against totalPlayers never fires, and the loop runs
as many iterations as it is given fuel without ever exiting — there is no
bound by the initially observed count of two entries. -/
theorem C1_clearQueue_unbounded_iterations (fuel : ℕ) :
    clearQueue ["A", "B"] (fun _ => ["A", "B"]) fuel = (fuel, false) := by
  simp only [clearQueue, List.isEmpty_cons, if_neg]
  norm_num [clearQueueLoop_stuck fuel 0]

/-! ### C7: getPlayers falls back to any cached roster on a failed fetch -/

/-- Claim C7: when the fetch fails, getPlayers returns the cached roster
whenever a cache entry exists (however old), and propagates the typed
failure exactly when no cache entry exists. -/
theorem C7_getPlayers_cache_fallback (st : ApiState) (now : ℤ)
    (force : Bool) (e : String) :
    (∀ c, st.cache = some c →
      getPlayers st now force (.error e) = .ok (c.data, st)) ∧
    (st.cache = none → getPlayers st now force (.error e) = .error e) := by
  constructor
  · intro c hc
    simp only [getPlayers, isCacheValid, hc]
    split_ifs <;> rfl
  · intro hc
    simp [getPlayers, isCacheValid, hc]

/-- Witness for C7 at a concrete cache state, an expired timestamp and a
concrete failure. -/
theorem C7_getPlayers_cache_fallback_witness :
    getPlayers ⟨some ⟨[], 0⟩⟩ 99999999999 false (.error "HTTP 500") =
      .ok ([], ⟨some ⟨[], 0⟩⟩) ∧
    getPlayers ⟨none⟩ 99999999999 false (.error "HTTP 500") =
      .error "HTTP 500" :=
  ⟨(C7_getPlayers_cache_fallback ⟨some ⟨[], 0⟩⟩ 99999999999 false
      "HTTP 500").1 ⟨[], 0⟩ rfl,
   (C7_getPlayers_cache_fallback ⟨none⟩ 99999999999 false "HTTP 500").2 rfl⟩

/-! ### C5: confidence bounds and exactness on exact names -/

/-- Claim C5: calculateConfidence always lies in [0, 1], and a
case-insensitive exact full-name equality forces the score to exactly 1,
whatever the player's status, team or position contribute. -/
theorem C5_confidence_bounds (s pn : String) (p : Player) :
    0 ≤ calculateConfidence s pn p ∧ calculateConfidence s pn p ≤ 1 ∧
    (jsToLower s = jsToLower pn → calculateConfidence s pn p = 1) := by
  unfold calculateConfidence
  split_ifs with h1 h2 h3 h4 <;>
    refine ⟨by norm_num [min_def], by norm_num [min_def], fun hh => ?_⟩ <;>
    first
      | exact absurd hh h1
      | norm_num [min_def]

/-- Witness for C5 on an exact-match pair with an inactive, teamless,
positionless player record. -/
theorem C5_confidence_bounds_witness :
    calculateConfidence "Josh Allen" "Josh Allen"
      ⟨"Josh", "Allen", "IR", "", ""⟩ = 1 :=
  (C5_confidence_bounds "Josh Allen" "Josh Allen"
    ⟨"Josh", "Allen", "IR", "", ""⟩).2.2 rfl

/-! ### C3: batch resolution outcomes versus input lines -/

/-- Claim C3: refuted by the code.  A blank input line is skipped without
recording any outcome, so on the one-line input consisting of the empty
string the four buckets together hold zero entries, not one. -/
theorem C3_outcomes_drop_blank_counterexample :
    totalOutcomes (processPlayerList [""] [] defaultOpts) ≠
      ([""] : List String).length := by
  decide

lemma processAux_total (players : List (String × Player))
    (opts : MatchOptions) :
    ∀ (names : List String) (i : ℕ),
      totalOutcomes (processAux players opts i names) =
        (names.filter (fun n => jsTrim n != "")).length := by
  intro names
  induction names with
  | nil => intro i; rfl
  | cons nm rest ih =>
      intro i
      simp only [processAux, List.filter]
      by_cases hb : jsTrim nm = ""
      · simp [hb, ih (i+1)]
      · simp only [if_neg hb]
        have hbn : (jsTrim nm != "") = true := by
          simp [bne_iff_ne, hb]
        rw [hbn]
        have ih2 := ih (i+1)
        simp only [totalOutcomes] at ih2
        cases hfb : findBestMatch (jsTrim nm) players opts with
        | none => simp [totalOutcomes]; omega
        | some ob =>
            cases ob with
            | none => simp [totalOutcomes]; omega
            | some b =>
                by_cases hd : b.needsDisambiguation <;>
                  simp [hd, totalOutcomes] <;> omega

/-- Claim C3, amended: the outcome buckets of processPlayerList together
hold exactly one entry per input line whose trimmed content is non-blank
(blank lines are skipped); no non-blank line's outcome is dropped. -/
theorem C3_outcomes_complete_amended (names : List String)
    (players : List (String × Player)) (opts : MatchOptions) :
    totalOutcomes (processPlayerList names players opts) =
      (names.filter (fun n => jsTrim n != "")).length :=
  processAux_total players opts names 0

/-! ### C8: the diacritic fold is total and idempotent -/

lemma asciiLookupPairs_vals_ascii :
    ∀ p ∈ asciiLookupPairs, ∀ c ∈ p.2.data, c.toNat ≤ 0x7f := by
  decide

lemma flatMap_foldChar_ascii :
    ∀ l : List Char, (∀ c ∈ l, c.toNat ≤ 0x7f) → l.flatMap foldChar = l := by
  intro l
  induction l with
  | nil => intro _; rfl
  | cons c cs ih =>
      intro h
      have hc : c.toNat ≤ 0x7f := h c (List.mem_cons_self c cs)
      simp only [List.flatMap_cons, foldChar, if_pos hc]
      simp [ih (fun d hd => h d (List.mem_cons_of_mem c hd))]

lemma foldChar_idem (c : Char) : (foldChar c).flatMap foldChar = foldChar c := by
  by_cases hc : c.toNat ≤ 0x7f
  · simp [foldChar, hc]
  · cases hl : asciiLookup c with
    | none => simp [foldChar, hc, hl]
    | some r =>
        by_cases hr : r = ""
        · simp [foldChar, hc, hl, hr]
        · have hmem : ∃ p ∈ asciiLookupPairs, p.2 = r := by
            have := hl
            unfold asciiLookup at this
            cases hf : asciiLookupPairs.reverse.find? (fun p => p.1 = c) with
            | none => rw [hf] at this; simp at this
            | some q =>
                rw [hf] at this
                refine ⟨q, List.mem_reverse.mp (List.mem_of_find?_eq_some hf),
                  ?_⟩
                simpa using this
          obtain ⟨p, hp, hpr⟩ := hmem
          have hascii : ∀ d ∈ r.data, d.toNat ≤ 0x7f := by
            intro d hd
            exact asciiLookupPairs_vals_ascii p hp d (hpr ▸ hd)
          simp [foldChar, hc, hl, hr, flatMap_foldChar_ascii r.data hascii]

lemma asciiFold_idem (s : String) : asciiFold (asciiFold s) = asciiFold s := by
  show (⟨(asciiFold s).data.flatMap foldChar⟩ : String) = asciiFold s
  have : (asciiFold s).data = s.data.flatMap foldChar := rfl
  rw [this, List.flatMap_assoc]
  show (⟨s.data.flatMap (fun c => (foldChar c).flatMap foldChar)⟩ : String) =
    asciiFold s
  have h2 : s.data.flatMap (fun c => (foldChar c).flatMap foldChar) =
      s.data.flatMap foldChar := by
    apply List.flatMap_congr ?_
    intro c _
    exact foldChar_idem c
  rw [h2]
  rfl

/-- Claim C8: asciiFold is total (it is a function on all strings) and
idempotent, and a character without a table entry passes through
unchanged. -/
theorem C8_asciiFold_idempotent :
    (∀ s : String, asciiFold (asciiFold s) = asciiFold s) ∧
    (∀ c : Char, asciiLookup c = none → asciiFold ⟨[c]⟩ = ⟨[c]⟩) := by
  refine ⟨asciiFold_idem, ?_⟩
  intro c hl
  by_cases hc : c.toNat ≤ 0x7f <;>
    simp [asciiFold, foldChar, hc, hl]

/-- Witness for C8 on a character that has no table entry. -/
theorem C8_asciiFold_idempotent_witness :
    asciiLookup '中' = none ∧ asciiFold ⟨['中']⟩ = ⟨['中']⟩ :=
  ⟨by decide, C8_asciiFold_idempotent.2 '中' (by decide)⟩

/-! ### C9: extractPlayerName yields exactly two tokens or nothing -/

lemma splitWsAux_wf : ∀ (cs acc : List Char),
    (∀ c ∈ acc, jsIsSpace c = false) →
    ∀ w ∈ splitWsAux cs acc, w ≠ [] ∧ ∀ c ∈ w, jsIsSpace c = false := by
  intro cs
  induction cs with
  | nil =>
      intro acc hacc w hw
      simp only [splitWsAux] at hw
      split at hw
      · simp at hw
      · rename_i hne
        simp only [List.mem_singleton] at hw
        subst hw
        refine ⟨by simpa [List.isEmpty_iff] using hne, ?_⟩
        intro c hc
        exact hacc c (List.mem_reverse.mp hc)
  | cons c cs ih =>
      intro acc hacc w hw
      simp only [splitWsAux] at hw
      by_cases hsp : jsIsSpace c
      · rw [if_pos hsp] at hw
        split at hw
        · exact ih [] (by simp) w hw
        · rename_i hne
          rcases List.mem_cons.mp hw with h1 | h2
          · subst h1
            refine ⟨by simpa [List.isEmpty_iff] using hne, ?_⟩
            intro d hd
            exact hacc d (List.mem_reverse.mp hd)
          · exact ih [] (by simp) w h2
      · rw [if_neg hsp] at hw
        refine ih (c :: acc) ?_ w hw
        intro d hd
        rcases List.mem_cons.mp hd with h1 | h2
        · subst h1; simpa using hsp
        · exact hacc d h2

lemma splitWsAux_word : ∀ (w cs acc : List Char),
    (∀ c ∈ w, jsIsSpace c = false) →
    splitWsAux (w ++ cs) acc = splitWsAux cs (w.reverse ++ acc) := by
  intro w
  induction w with
  | nil => intro cs acc _; simp
  | cons c w' ih =>
      intro cs acc hw
      have hc : jsIsSpace c = false := hw c (List.mem_cons_self c w')
      show splitWsAux (c :: (w' ++ cs)) acc = _
      simp only [splitWsAux]
      rw [if_neg (by simp [hc])]
      show splitWsAux (w' ++ cs) (c :: acc) = _
      rw [ih cs (c :: acc) (fun d hd => hw d (List.mem_cons_of_mem c hd))]
      simp

lemma splitWs_single (w : List Char) (hne : w ≠ [])
    (hw : ∀ c ∈ w, jsIsSpace c = false) : splitWs w = [w] := by
  have : w ++ ([] : List Char) = w := by simp
  rw [splitWs, ← this, splitWsAux_word w [] [] hw]
  simp only [splitWsAux]
  rw [if_neg (by simpa [List.isEmpty_iff] using hne)]
  simp

lemma splitWs_join_pair {a b : List Char} (ha : a ≠ []) (hb : b ≠ [])
    (ha2 : ∀ c ∈ a, jsIsSpace c = false)
    (hb2 : ∀ c ∈ b, jsIsSpace c = false) :
    splitWs (joinSpace [a, b]) = [a, b] ∧ joinSpace [a, b] ≠ [] := by
  have hjoin : joinSpace [a, b] = a ++ ' ' :: b := by
    simp [joinSpace]
  constructor
  · rw [hjoin, splitWs, splitWsAux_word a (' ' :: b) [] ha2]
    simp only [splitWsAux]
    rw [if_pos (by simp [jsIsSpace])]
    rw [if_neg (by simpa [List.isEmpty_iff] using ha)]
    have hb3 : b ++ ([] : List Char) = b := by simp
    rw [← hb3, splitWsAux_word b [] [] hb2]
    simp only [splitWsAux]
    rw [if_neg (by simpa [List.isEmpty_iff] using hb)]
    simp
  · rw [hjoin]
    intro hcon
    rcases List.append_eq_nil.mp hcon with ⟨_, h2⟩
    exact List.cons_ne_nil _ _ h2

lemma pickNameWords_len : ∀ (ws acc : List (List Char)), acc.length ≤ 1 →
    (pickNameWords ws acc).length ≤ 2 := by
  intro ws
  induction ws with
  | nil => intro acc h; simpa [pickNameWords] using by omega
  | cons w ws ih =>
      intro acc h
      simp only [pickNameWords]
      split
      · split
        · rename_i hge; omega
        · exact ih acc h
      · split
        · rename_i hge
          simp only [List.length_append, List.length_singleton]
          omega
        · rename_i hlt
          refine ih _ ?_
          simp only [List.length_append, List.length_singleton] at hlt ⊢
          omega

lemma pickNameWords_mem : ∀ (ws acc : List (List Char)) (x : List Char),
    x ∈ pickNameWords ws acc → x ∈ acc ∨ x ∈ ws := by
  intro ws
  induction ws with
  | nil => intro acc x hx; exact Or.inl (by simpa [pickNameWords] using hx)
  | cons w ws ih =>
      intro acc x hx
      simp only [pickNameWords] at hx
      split at hx
      · split at hx
        · exact Or.imp_right (List.mem_cons_of_mem w) (Or.inl hx)
        · rcases ih acc x hx with h | h
          · exact Or.inl h
          · exact Or.inr (List.mem_cons_of_mem w h)
      · split at hx
        · rcases List.mem_append.mp hx with h | h
          · exact Or.inl h
          · exact Or.inr (by simpa using Or.inl (List.mem_singleton.mp h))
        · rcases ih _ x hx with h | h
          · rcases List.mem_append.mp h with h2 | h2
            · exact Or.inl h2
            · exact Or.inr (by simpa using Or.inl (List.mem_singleton.mp h2))
          · exact Or.inr (List.mem_cons_of_mem w h)

/-- Claim C9: whenever extractPlayerName returns a string, that string
consists of exactly two whitespace-separated tokens (in particular it is
never empty and never a single- or three-token name). -/
theorem C9_extractPlayerName_two_tokens (t s : String)
    (h : extractPlayerName t = some s) :
    (splitWs s.data).length = 2 ∧ s ≠ "" := by
  simp only [extractPlayerName] at h
  set cleanText := stripTrailWs
    (stripRemoveF (collapseWs (jsTrim t).data).length
      (collapseWs (jsTrim t).data)) with hct
  set words := splitWs cleanText with hwords
  have hwf : ∀ w ∈ words, w ≠ [] ∧ ∀ c ∈ w, jsIsSpace c = false := by
    intro w hw
    exact splitWsAux_wf cleanText [] (by simp) w hw
  split at h
  · rename_i hlen
    split at h
    · rename_i hpick
      have hle := pickNameWords_len (words.take 3) [] (by simp)
      have hexact : (pickNameWords (words.take 3) []).length = 2 := by omega
      obtain ⟨a, b, hab⟩ := List.length_eq_two.mp hexact
      have hmem : ∀ x ∈ [a, b], x ∈ words := by
        intro x hx
        have hx2 : x ∈ pickNameWords (words.take 3) [] := by
          rw [hab]; exact hx
        rcases pickNameWords_mem (words.take 3) [] x hx2 with h1 | h1
        · simp at h1
        · exact List.take_subset 3 words h1
      have hawf := hwf a (hmem a (by simp))
      have hbwf := hwf b (hmem b (by simp))
      have hpair := splitWs_join_pair hawf.1 hbwf.1 hawf.2 hbwf.2
      rw [hab] at h
      rw [← Option.some_inj.mp h]
      constructor
      · show (splitWs (joinSpace [a, b])).length = 2
        rw [hpair.1]; rfl
      · intro hcon
        have : joinSpace [a, b] = [] := congrArg String.data hcon
        exact hpair.2 this
    · rename_i hpick
      have hwne : words ≠ [] := by
        intro hnil; rw [hnil] at hlen; simp at hlen
      obtain ⟨w1, tl, hw1⟩ := List.exists_cons_of_ne_nil hwne
      have htlne : tl ≠ [] := by
        intro hnil; rw [hw1, hnil] at hlen; simp at hlen
      obtain ⟨w2, tl2, hw2⟩ := List.exists_cons_of_ne_nil htlne
      have htake : words.take 2 = [w1, w2] := by
        rw [hw1, hw2]; rfl
      rw [htake] at h
      have h1wf := hwf w1 (by rw [hw1]; exact List.mem_cons_self _ _)
      have h2wf := hwf w2 (by
        rw [hw1, hw2]
        exact List.mem_cons_of_mem _ (List.mem_cons_self _ _))
      have hpair := splitWs_join_pair h1wf.1 h2wf.1 h1wf.2 h2wf.2
      rw [← Option.some_inj.mp h]
      constructor
      · show (splitWs (joinSpace [w1, w2])).length = 2
        rw [hpair.1]; rfl
      · intro hcon
        have : joinSpace [w1, w2] = [] := congrArg String.data hcon
        exact hpair.2 this
  · exact absurd h (by simp)

/-- Witness for C9 on the spec's worked example. -/
theorem C9_extractPlayerName_two_tokens_witness :
    extractPlayerName "Josh Allen QB BUF REMOVE" = some "Josh Allen" ∧
    (splitWs "Josh Allen".data).length = 2 ∧ ("Josh Allen" : String) ≠ "" :=
  ⟨by decide,
   C9_extractPlayerName_two_tokens "Josh Allen QB BUF REMOVE" "Josh Allen"
     (by decide)⟩

/-! ### C10: candidates returned by findPlayerMatches -/

lemma mem_insertStable {α : Type} (le : α → α → Bool) (x y : α) :
    ∀ l, y ∈ insertStable le x l ↔ y = x ∨ y ∈ l := by
  intro l
  induction l with
  | nil => simp [insertStable]
  | cons z zs ih =>
      simp only [insertStable]
      split
      · simp [List.mem_cons]
      · simp only [List.mem_cons, ih]
        tauto

lemma mem_sortStable {α : Type} (le : α → α → Bool) (y : α) :
    ∀ l, y ∈ sortStable le l ↔ y ∈ l := by
  intro l
  induction l with
  | nil => simp [sortStable]
  | cons z zs ih =>
      simp only [sortStable, mem_insertStable, ih, List.mem_cons]

lemma calcConf_bounds (s pn : String) (p : Player) :
    1/2 ≤ calculateConfidence s pn p ∧ calculateConfidence s pn p ≤ 1 := by
  unfold calculateConfidence
  split_ifs <;> constructor <;> norm_num [min_def]

lemma collectMatches_mem (s : String) (opts : MatchOptions) :
    ∀ (players : List (String × Player)) (ms : List MatchCand)
      (m : MatchCand),
      collectMatches s opts players = some ms → m ∈ ms →
      m.player.first_name ≠ "" ∧ m.player.last_name ≠ "" ∧
      m.confidence = calculateConfidence s m.fullName m.player := by
  intro players
  induction players with
  | nil =>
      intro ms m hcm hm
      simp only [collectMatches] at hcm
      rw [← Option.some_inj.mp hcm] at hm
      simp at hm
  | cons pp rest ih =>
      intro ms m hcm hm
      obtain ⟨pid, p⟩ := pp
      simp only [collectMatches] at hcm
      by_cases h1 : p.first_name = "" ∨ p.last_name = ""
      · rw [if_pos h1] at hcm
        exact ih ms m hcm hm
      · rw [if_neg h1] at hcm
        by_cases h2 : opts.requireActive ∧ p.status ≠ "Active"
        · rw [if_pos h2] at hcm
          exact ih ms m hcm hm
        · rw [if_neg h2] at hcm
          by_cases h3 : (opts.requirePosition &&
              (match opts.preferredPositions with
               | some l => !(l.contains p.position)
               | none => false)) = true
          · rw [if_pos h3] at hcm
            exact ih ms m hcm hm
          · rw [if_neg h3] at hcm
            cases hnm : namesMatch s (p.first_name ++ " " ++ p.last_name) with
            | none => rw [hnm] at hcm; simp at hcm
            | some b =>
                rw [hnm] at hcm
                cases b with
                | false => exact ih ms m hcm hm
                | true =>
                    cases hrest : collectMatches s opts rest with
                    | none => rw [hrest] at hcm; simp at hcm
                    | some ms2 =>
                        rw [hrest] at hcm
                        simp only [Option.map] at hcm
                        rw [← Option.some_inj.mp hcm] at hm
                        rcases List.mem_cons.mp hm with he | hm2
                        · subst he
                          push_neg at h1
                          exact ⟨h1.1, h1.2, rfl⟩
                        · exact ih ms2 m hrest hm2

/-- Claim C10: every candidate findPlayerMatches returns carries a
confidence in [0.5, 1] and wraps a roster record with a non-empty first
name and a non-empty last name. -/
theorem C10_findPlayerMatches_candidates (s : String)
    (players : List (String × Player)) (opts : MatchOptions)
    (ms : List MatchCand) (m : MatchCand)
    (hms : findPlayerMatches s players opts = some ms) (hm : m ∈ ms) :
    1/2 ≤ m.confidence ∧ m.confidence ≤ 1 ∧
    m.player.first_name ≠ "" ∧ m.player.last_name ≠ "" := by
  unfold findPlayerMatches at hms
  cases hcm : collectMatches s opts players with
  | none => rw [hcm] at hms; simp at hms
  | some ms0 =>
      rw [hcm] at hms
      simp only [Option.map] at hms
      rw [← Option.some_inj.mp hms] at hm
      have hm0 : m ∈ ms0 := (mem_sortStable (sortLe opts) m ms0).mp hm
      obtain ⟨hf, hl, hconf⟩ := collectMatches_mem s opts players ms0 m hcm hm0
      have hb := calcConf_bounds s m.fullName m.player
      rw [← hconf] at hb
      exact ⟨hb.1, hb.2, hf, hl⟩

/-- Witness for C10 on a one-player roster. -/
theorem C10_findPlayerMatches_candidates_witness :
    1/2 ≤ (⟨⟨"Josh", "Allen", "Active", "BUF", "QB"⟩, "1", "Josh Allen",
        (1 : ℚ)⟩ : MatchCand).confidence ∧
      (⟨⟨"Josh", "Allen", "Active", "BUF", "QB"⟩, "1", "Josh Allen",
        (1 : ℚ)⟩ : MatchCand).confidence ≤ 1 ∧
      (⟨⟨"Josh", "Allen", "Active", "BUF", "QB"⟩, "1", "Josh Allen",
        (1 : ℚ)⟩ : MatchCand).player.first_name ≠ "" ∧
      (⟨⟨"Josh", "Allen", "Active", "BUF", "QB"⟩, "1", "Josh Allen",
        (1 : ℚ)⟩ : MatchCand).player.last_name ≠ "" :=
  C10_findPlayerMatches_candidates "Josh Allen"
    [("1", ⟨"Josh", "Allen", "Active", "BUF", "QB"⟩)] defaultOpts
    [⟨⟨"Josh", "Allen", "Active", "BUF", "QB"⟩, "1", "Josh Allen", 1⟩]
    ⟨⟨"Josh", "Allen", "Active", "BUF", "QB"⟩, "1", "Josh Allen", 1⟩
    (by with_unfolding_all decide) (by simp)

/-! ### C6: the best-match selection policy -/

/-- Claim C6, refuted as stated: on a roster where two inactive exact
homonyms tie at confidence 1.0 and the only active candidate is a
low-confidence near-miss at 0.7, findBestMatch returns that active
candidate as a unique, non-ambiguous match, although it is not within 0.1
of the top candidate (so it lies outside any tied set) — the claimed
tied-set narrowing would instead have produced an ambiguous result. -/
theorem C6_tied_set_counterexample :
    (findPlayerMatches "Ann Smith" tiedRoster inactiveOpts).map
        (fun ms => ms.map (fun m => (m.playerId, m.confidence))) =
      some [("1", 1), ("2", 1), ("3", 7/10)] ∧
    (findBestMatch "Ann Smith" tiedRoster inactiveOpts).map
        (fun ob => ob.map
          (fun b => (b.cand.playerId, b.cand.confidence,
            b.needsDisambiguation))) =
      some (some ("3", 7/10, false)) ∧
    (7 : ℚ)/10 + 1/10 < 1 := by
  refine ⟨?_, ?_, by norm_num⟩ <;> with_unfolding_all decide

/-- Claim C6, amended: findBestMatch implements the selection policy whose
narrowing steps range over all matched candidates rather than the tied
set: none → no match; one → unique; several → top wins outright on a
confidence gap above 0.1, else an only-active candidate wins, else an only
team-affiliated candidate among the active ones wins, else an ambiguous
result carrying the top candidate and at most two alternatives. -/
theorem C6_findBestMatch_policy_amended (s : String)
    (players : List (String × Player)) (opts : MatchOptions) :
    findBestMatch s players opts =
      (findPlayerMatches s players opts).map specBestPolicy := by
  unfold findBestMatch
  cases hfm : findPlayerMatches s players opts with
  | none => rfl
  | some ms =>
      simp only [Option.map]
      congr 1
      cases ms with
      | nil => rfl
      | cons m1 tl =>
          cases tl with
          | nil => rfl
          | cons m2 rest =>
              simp only [specBestPolicy]
              split_ifs with hconf
              · rfl
              · cases hact : (m1 :: m2 :: rest).filter
                    (fun c => c.player.status = "Active") with
                | nil => simp [theOnly, hact]
                | cons a atl =>
                    cases atl with
                    | nil => simp [theOnly, hact]
                    | cons b btl =>
                        simp only [theOnly, hact]
                        cases htm : (a :: b :: btl).filter
                            (fun c => c.player.team ≠ "") with
                        | nil => simp [htm]
                        | cons u utl =>
                            cases utl with
                            | nil => simp [htm]
                            | cons v vtl => simp [htm]

/-! ### C2: namesMatch on empty strings -/

lemma nameToRegex_empty : nameToRegex "" = some (RE.seq RE.bol RE.eps) := rfl

lemma reSearchPos_anchor (cs : List Char) :
    reSearchPos (RE.seq RE.bol RE.eps) cs = some (0, 0) := by
  have hrun : ∀ ds : List Char, reRun (RE.seq RE.bol RE.eps) 0 ds = [(0, ds)] := by
    intro ds; simp [reRun]
  cases cs with
  | nil => rw [reSearchPos, searchFrom, hrun]; rfl
  | cons c t => rw [reSearchPos, searchFrom, hrun]; simp

/-- Claim C2, refuted as stated: the empty name compiles to the bare start
anchor, which matches every subject, so namesMatch on two empty strings
returns true rather than the claimed false. -/
theorem C2_namesMatch_empty_counterexample : namesMatch "" "" = some true := by
  decide

/-- Claim C2, amended: with an empty second argument namesMatch returns
true (not false) for every first argument, without throwing; with an empty
first argument it returns true whenever compiling the other name's pattern
does not throw (the other name's pattern is compiled first, so a name that
folds to an invalid pattern makes the call throw). -/
theorem C2_namesMatch_empty_amended (n : String) :
    namesMatch n "" = some true ∧
    ((nameToRegex (asciiFold n)).isSome → namesMatch "" n = some true) := by
  constructor
  · have h1 : nameToRegex (asciiFold "") = some (RE.seq RE.bol RE.eps) := rfl
    simp only [namesMatch, h1]
    rw [reSearchPos_anchor]
    simp
  · intro h
    obtain ⟨r1, hr1⟩ := Option.isSome_iff_exists.mp h
    simp only [namesMatch, hr1]
    by_cases h2 : (reSearchPos r1 (asciiFold "").data).isSome
    · rw [if_pos h2]
    · rw [if_neg h2]
      have h1 : nameToRegex (asciiFold "") = some (RE.seq RE.bol RE.eps) := rfl
      simp only [h1]
      rw [reSearchPos_anchor]
      simp

/-- Witness for C2 with a concrete non-empty other name. -/
theorem C2_namesMatch_empty_amended_witness :
    namesMatch "Josh Allen" "" = some true ∧
    namesMatch "" "Josh Allen" = some true :=
  ⟨(C2_namesMatch_empty_amended "Josh Allen").1,
   (C2_namesMatch_empty_amended "Josh Allen").2 (by decide)⟩

/-! ### C4: reflexivity of namesMatch after folding -/

/-- Claim C4, refuted as stated: a name containing a character that is
structurally significant in the pattern language (here the quantifier +)
is folded to itself, yet does not match itself, because nameToRegex embeds
the name into the pattern without escaping it. -/
theorem C4_reflexivity_counterexample :
    asciiFold "A+ B" = "A+ B" ∧
    namesMatch (asciiFold "A+ B") (asciiFold "A+ B") = some false := by
  constructor <;> decide

lemma plain_ne {c d : Char} (h : plainChar c = true)
    (hd : plainChar d = false) : c ≠ d := by
  intro he
  rw [he, hd] at h
  cases h

lemma plain_not_quant {c : Char} (h : plainChar c = true) :
    isQuant c = false := by
  cases hq : isQuant c
  · rfl
  · exfalso
    have : c = '?' ∨ c = '*' ∨ c = '+' := by
      simpa [isQuant] using hq
    rcases this with h1 | h1 | h1 <;> rw [h1] at h <;> cases h

lemma plain_not_stop {c : Char} (h : plainChar c = true) :
    isSeqStop c = false := by
  cases hq : isSeqStop c
  · rfl
  · exfalso
    have : c = ')' ∨ c = '|' := by
      simpa [isSeqStop] using hq
    rcases this with h1 | h1 <;> rw [h1] at h <;> cases h

lemma char_eq_of_toNat_eq {c d : Char} (h : c.toNat = d.toNat) : c = d := by
  apply Char.ext
  apply UInt32.ext
  simpa [Char.toNat, UInt32.toNat] using h

lemma lowerChar_toNat (c : Char) :
    (lowerChar c).toNat =
      if 65 ≤ c.toNat ∧ c.toNat ≤ 90 then c.toNat + 32 else c.toNat := by
  by_cases h1 : 65 ≤ c.toNat ∧ c.toNat ≤ 90
  · rw [if_pos h1]
    unfold lowerChar
    rw [if_pos (show c.toNat ≥ 65 ∧ c.toNat ≤ 90 from ⟨h1.1, h1.2⟩)]
    have hv : Nat.isValidChar (c.toNat + 32) := by left; omega
    generalize c.toNat = x at hv ⊢
    simp [Char.ofNat, Char.toNat, hv, Char.ofNatAux, UInt32.toNat,
      BitVec.toNat_ofNatLt]
  · rw [if_neg h1]
    unfold lowerChar
    rw [if_neg (show ¬(c.toNat ≥ 65 ∧ c.toNat ≤ 90) from
      fun hh => h1 ⟨hh.1, hh.2⟩)]

lemma ciEq_refl (c : Char) : ciEq c c = true := by
  simp [ciEq]

lemma ciEq_goodChar {ch d : Char} (h : ciEq ch d = true)
    (hd : goodChar d = true) : goodChar ch = true := by
  have heq : lowerChar ch = lowerChar d := by simpa [ciEq] using h
  have htn : (lowerChar ch).toNat = (lowerChar d).toNat := by rw [heq]
  rw [lowerChar_toNat, lowerChar_toNat] at htn
  rw [goodChar, decide_eq_true_eq] at hd ⊢
  split_ifs at htn <;> omega

lemma goodChar_plain {c : Char} (h : goodChar c = true) :
    plainChar c = true := by
  rw [goodChar, decide_eq_true_eq] at h
  rw [plainChar, decide_eq_true_eq]
  omega

lemma goodChar_not_joint {c : Char} (h : goodChar c = true) :
    ¬(c = '-' ∨ c = '.') := by
  rw [goodChar, decide_eq_true_eq] at h
  intro hj
  rcases hj with h1 | h1 <;> rw [h1] at h <;>
    simp only [show ('-').toNat = 45 from rfl,
      show ('.').toNat = 46 from rfl] at h <;> omega

lemma pre_nil_of_append_self {α : Type} {pre rem : List α}
    (h : rem = pre ++ rem) : pre = [] := by
  have hl := congrArg List.length h
  simp only [List.length_append] at hl
  have : pre.length = 0 := by omega
  exact List.length_eq_zero.mp this

lemma runStar_suffix (f : ℕ → List Char → List (ℕ × List Char))
    (hf : ∀ p cs q rem, (q, rem) ∈ f p cs →
      ∃ pre, cs = pre ++ rem ∧ q = p + pre.length) :
    ∀ (fuel p : ℕ) (cs : List Char) (q : ℕ) (rem : List Char),
      (q, rem) ∈ runStar f fuel p cs →
      ∃ pre, cs = pre ++ rem ∧ q = p + pre.length := by
  intro fuel
  induction fuel with
  | zero =>
      intro p cs q rem h
      simp only [runStar, List.mem_singleton, Prod.mk.injEq] at h
      exact ⟨[], by simp [h.1, h.2]⟩
  | succ n ih =>
      intro p cs q rem h
      simp only [runStar, List.mem_append, List.mem_flatMap,
        List.mem_filter, List.mem_singleton, Prod.mk.injEq] at h
      rcases h with ⟨pr, ⟨hmem, _⟩, hrec⟩ | ⟨hq, hcs⟩
      · obtain ⟨pre1, hcs1, hq1⟩ :=
          hf p cs pr.1 pr.2 (by simpa using hmem)
        obtain ⟨pre2, hcs2, hq2⟩ := ih pr.1 pr.2 q rem hrec
        refine ⟨pre1 ++ pre2, ?_, ?_⟩
        · rw [hcs1, hcs2, List.append_assoc]
        · rw [hq2, hq1, List.length_append]; omega
      · exact ⟨[], by simp [hq, hcs]⟩

lemma reRun_suffix : ∀ (r : RE) (p : ℕ) (cs : List Char) (q : ℕ)
    (rem : List Char), (q, rem) ∈ reRun r p cs →
    ∃ pre, cs = pre ++ rem ∧ q = p + pre.length := by
  intro r
  induction r with
  | eps =>
      intro p cs q rem h
      simp only [reRun, List.mem_singleton, Prod.mk.injEq] at h
      exact ⟨[], by simp [h.1, h.2]⟩
  | lit d =>
      intro p cs q rem h
      cases cs with
      | nil => simp [reRun] at h
      | cons c t =>
          simp only [reRun] at h
          split_ifs at h with hci
          · simp only [List.mem_singleton, Prod.mk.injEq] at h
            exact ⟨[c], by simp [h.1, h.2]⟩
          · simp at h
  | cls n its =>
      intro p cs q rem h
      cases cs with
      | nil => simp [reRun] at h
      | cons c t =>
          simp only [reRun] at h
          split_ifs at h with hci
          · simp only [List.mem_singleton, Prod.mk.injEq] at h
            exact ⟨[c], by simp [h.1, h.2]⟩
          · simp at h
  | dot =>
      intro p cs q rem h
      cases cs with
      | nil => simp [reRun] at h
      | cons c t =>
          simp only [reRun] at h
          split_ifs at h with hci
          · simp at h
          · simp only [List.mem_singleton, Prod.mk.injEq] at h
            exact ⟨[c], by simp [h.1, h.2]⟩
  | bol =>
      intro p cs q rem h
      simp only [reRun] at h
      split_ifs at h with hp
      · simp only [List.mem_singleton, Prod.mk.injEq] at h
        exact ⟨[], by simp [h.1, h.2]⟩
      · simp at h
  | eol =>
      intro p cs q rem h
      simp only [reRun] at h
      split_ifs at h with hp
      · simp only [List.mem_singleton, Prod.mk.injEq] at h
        exact ⟨[], by simp [h.1, h.2]⟩
      · simp at h
  | seq a b iha ihb =>
      intro p cs q rem h
      simp only [reRun, List.mem_flatMap] at h
      obtain ⟨pr, hpa, hpb⟩ := h
      obtain ⟨pre1, hcs1, hq1⟩ := iha p cs pr.1 pr.2 (by simpa using hpa)
      obtain ⟨pre2, hcs2, hq2⟩ := ihb pr.1 pr.2 q rem hpb
      refine ⟨pre1 ++ pre2, ?_, ?_⟩
      · rw [hcs1, hcs2, List.append_assoc]
      · rw [hq2, hq1, List.length_append]; omega
  | alt a b iha ihb =>
      intro p cs q rem h
      simp only [reRun, List.mem_append] at h
      rcases h with h | h
      · exact iha p cs q rem h
      · exact ihb p cs q rem h
  | opt a iha =>
      intro p cs q rem h
      simp only [reRun, List.mem_append, List.mem_singleton,
        Prod.mk.injEq] at h
      rcases h with h | ⟨hq, hcs⟩
      · exact iha p cs q rem h
      · exact ⟨[], by simp [hq, hcs]⟩
  | star a iha =>
      intro p cs q rem h
      simp only [reRun] at h
      exact runStar_suffix (fun q2 ds => reRun a q2 ds)
        (fun p2 cs2 q2 rem2 hm => iha p2 cs2 q2 rem2 hm)
        (cs.length + 1) p cs q rem h

lemma reRun_seq_mem {a b : RE} {p q1 q2 : ℕ} {cs mid rem : List Char}
    (h1 : (q1, mid) ∈ reRun a p cs) (h2 : (q2, rem) ∈ reRun b q1 mid) :
    (q2, rem) ∈ reRun (RE.seq a b) p cs := by
  simp only [reRun, List.mem_flatMap]
  exact ⟨(q1, mid), h1, h2⟩

lemma seqFold_mem_append : ∀ (ts1 ts2 : List RE) (p : ℕ) (cs : List Char)
    (q1 : ℕ) (mid : List Char) (q2 : ℕ) (rem : List Char),
    (q1, mid) ∈ reRun (seqFold ts1) p cs →
    (q2, rem) ∈ reRun (seqFold ts2) q1 mid →
    (q2, rem) ∈ reRun (seqFold (ts1 ++ ts2)) p cs := by
  intro ts1
  induction ts1 with
  | nil =>
      intro ts2 p cs q1 mid q2 rem h1 h2
      simp only [seqFold, List.foldr_nil, reRun, List.mem_singleton,
        Prod.mk.injEq] at h1
      rw [List.nil_append]
      rw [h1.1, h1.2] at h2
      exact h2
  | cons t ts ih =>
      intro ts2 p cs q1 mid q2 rem h1 h2
      simp only [seqFold, List.foldr_cons, reRun, List.mem_flatMap] at h1
      obtain ⟨pr, hpt, hps⟩ := h1
      have hrest := ih ts2 pr.1 pr.2 q1 mid q2 rem hps h2
      show (q2, rem) ∈ reRun (seqFold (t :: (ts ++ ts2))) p cs
      simp only [seqFold, List.foldr_cons]
      exact reRun_seq_mem (by simpa using hpt) hrest

lemma reRun_frame : ∀ (r : RE), noEol r = true → noStar r = true →
    ∀ (p : ℕ) (pre rem tl : List Char) (q : ℕ),
    (q, rem) ∈ reRun r p (pre ++ rem) →
    (p + pre.length, tl) ∈ reRun r p (pre ++ tl) := by
  intro r
  induction r with
  | eps =>
      intro _ _ p pre rem tl q h
      simp only [reRun, List.mem_singleton, Prod.mk.injEq] at h
      have hpre : pre = [] := pre_nil_of_append_self (by rw [← h.2])
      subst hpre
      simp [reRun]
  | lit d =>
      intro _ _ p pre rem tl q h
      cases pre with
      | nil =>
          exfalso
          cases rem with
          | nil => simp [reRun] at h
          | cons c t =>
              simp only [List.nil_append, reRun] at h
              split_ifs at h with hci
              · simp only [List.mem_singleton, Prod.mk.injEq] at h
                have := congrArg List.length h.2
                simp at this
              · simp at h
      | cons c0 pre2 =>
          simp only [List.cons_append, reRun] at h
          split_ifs at h with hci
          · simp only [List.mem_singleton, Prod.mk.injEq] at h
            have hpre2 : pre2 = [] := pre_nil_of_append_self (by rw [← h.2])
            subst hpre2
            simp [reRun, hci]
          · simp at h
  | cls n its =>
      intro _ _ p pre rem tl q h
      cases pre with
      | nil =>
          exfalso
          cases rem with
          | nil => simp [reRun] at h
          | cons c t =>
              simp only [List.nil_append, reRun] at h
              split_ifs at h with hci
              · simp only [List.mem_singleton, Prod.mk.injEq] at h
                have := congrArg List.length h.2
                simp at this
              · simp at h
      | cons c0 pre2 =>
          simp only [List.cons_append, reRun] at h
          split_ifs at h with hci
          · simp only [List.mem_singleton, Prod.mk.injEq] at h
            have hpre2 : pre2 = [] := pre_nil_of_append_self (by rw [← h.2])
            subst hpre2
            simp [reRun, hci]
          · simp at h
  | dot =>
      intro _ _ p pre rem tl q h
      cases pre with
      | nil =>
          exfalso
          cases rem with
          | nil => simp [reRun] at h
          | cons c t =>
              simp only [List.nil_append, reRun] at h
              split_ifs at h with hci
              · simp at h
              · simp only [List.mem_singleton, Prod.mk.injEq] at h
                have := congrArg List.length h.2
                simp at this
      | cons c0 pre2 =>
          simp only [List.cons_append, reRun] at h
          split_ifs at h with hci
          · simp at h
          · simp only [List.mem_singleton, Prod.mk.injEq] at h
            have hpre2 : pre2 = [] := pre_nil_of_append_self (by rw [← h.2])
            subst hpre2
            simp [reRun, hci]
  | bol =>
      intro _ _ p pre rem tl q h
      simp only [reRun] at h
      split_ifs at h with hp
      · simp only [List.mem_singleton, Prod.mk.injEq] at h
        have hpre : pre = [] := pre_nil_of_append_self (by rw [← h.2])
        subst hpre
        simp [reRun, hp]
      · simp at h
  | eol =>
      intro he _ p pre rem tl q h
      simp [noEol] at he
  | seq a b iha ihb =>
      intro he hs p pre rem tl q h
      simp only [noEol, Bool.and_eq_true] at he
      simp only [noStar, Bool.and_eq_true] at hs
      simp only [reRun, List.mem_flatMap] at h
      obtain ⟨⟨q1, mid⟩, hpa, hpb⟩ := h
      obtain ⟨pre2, hcs2, hq2⟩ := reRun_suffix b q1 mid q rem hpb
      obtain ⟨pre1, hcs1, hq1⟩ :=
        reRun_suffix a p (pre ++ rem) q1 mid hpa
      have hpre : pre = pre1 ++ pre2 := by
        have hh : pre ++ rem = (pre1 ++ pre2) ++ rem := by
          rw [hcs1, hcs2, List.append_assoc]
        exact List.append_cancel_right hh
      rw [hcs2] at hpb
      rw [hcs1, hcs2] at hpa
      rw [hq1] at hpa hpb
      have ha2 := iha he.1 hs.1 p pre1 (pre2 ++ rem) (pre2 ++ tl)
        (p + pre1.length) hpa
      have hb2 := ihb he.2 hs.2 (p + pre1.length) pre2 rem tl q hpb
      have hcomp := reRun_seq_mem ha2 hb2
      have hfinal : p + pre.length = p + pre1.length + pre2.length := by
        rw [hpre, List.length_append]; omega
      rw [hfinal, hpre, List.append_assoc]
      exact hcomp
  | alt a b iha ihb =>
      intro he hs p pre rem tl q h
      simp only [noEol, Bool.and_eq_true] at he
      simp only [noStar, Bool.and_eq_true] at hs
      simp only [reRun, List.mem_append] at h ⊢
      rcases h with h | h
      · exact Or.inl (iha he.1 hs.1 p pre rem tl q h)
      · exact Or.inr (ihb he.2 hs.2 p pre rem tl q h)
  | opt a iha =>
      intro he hs p pre rem tl q h
      simp only [noEol] at he
      simp only [noStar] at hs
      simp only [reRun, List.mem_append, List.mem_singleton,
        Prod.mk.injEq] at h ⊢
      rcases h with h | ⟨hq, hcs⟩
      · exact Or.inl (iha he hs p pre rem tl q h)
      · have hpre : pre = [] := pre_nil_of_append_self (by rw [← hcs])
        subst hpre
        simp
  | star a iha =>
      intro _ hs
      simp [noStar] at hs

lemma reRun_consumed : ∀ (r : RE), reLitsGood r = true → noStar r = true →
    ∀ (p : ℕ) (pre rem : List Char) (q : ℕ),
    (q, rem) ∈ reRun r p (pre ++ rem) →
    ∀ ch ∈ pre, goodChar ch = true := by
  intro r
  induction r with
  | eps =>
      intro _ _ p pre rem q h
      simp only [reRun, List.mem_singleton, Prod.mk.injEq] at h
      have hpre : pre = [] := pre_nil_of_append_self (by rw [← h.2])
      subst hpre
      simp
  | lit d =>
      intro hg _ p pre rem q h
      simp only [reLitsGood] at hg
      cases pre with
      | nil => simp
      | cons c0 pre2 =>
          simp only [List.cons_append, reRun] at h
          split_ifs at h with hci
          · simp only [List.mem_singleton, Prod.mk.injEq] at h
            have hpre2 : pre2 = [] := pre_nil_of_append_self (by rw [← h.2])
            subst hpre2
            intro ch hch
            simp only [List.mem_singleton] at hch
            subst hch
            exact ciEq_goodChar hci hg
          · simp at h
  | cls n its =>
      intro hg _ p pre rem q h
      simp only [reLitsGood, Bool.and_eq_true] at hg
      cases pre with
      | nil => simp
      | cons c0 pre2 =>
          simp only [List.cons_append, reRun] at h
          split_ifs at h with hcm
          · simp only [List.mem_singleton, Prod.mk.injEq] at h
            have hpre2 : pre2 = [] := pre_nil_of_append_self (by rw [← h.2])
            subst hpre2
            intro ch hch
            simp only [List.mem_singleton] at hch
            subst hch
            have hneg : n = false := by
              cases n
              · rfl
              · simp at hg
            subst hneg
            have : ∃ it ∈ its, clsItMatch it ch = true := by
              simpa [clsMatch, List.any_eq_true] using hcm
            obtain ⟨it, hit, hmatch⟩ := this
            have hgood := List.all_eq_true.mp hg.2 it hit
            cases it with
            | ch e =>
                simp only [clsItMatch] at hmatch
                exact ciEq_goodChar hmatch (by simpa using hgood)
            | range e1 e2 => simp at hgood
          · simp at h
  | dot =>
      intro hg _
      simp [reLitsGood] at hg
  | bol =>
      intro _ _ p pre rem q h
      simp only [reRun] at h
      split_ifs at h with hp
      · simp only [List.mem_singleton, Prod.mk.injEq] at h
        have hpre : pre = [] := pre_nil_of_append_self (by rw [← h.2])
        subst hpre
        simp
      · simp at h
  | eol =>
      intro _ _ p pre rem q h
      simp only [reRun] at h
      split_ifs at h with hp
      · simp only [List.mem_singleton, Prod.mk.injEq] at h
        have hpre : pre = [] := pre_nil_of_append_self (by rw [← h.2])
        subst hpre
        simp
      · simp at h
  | seq a b iha ihb =>
      intro hg hs p pre rem q h
      simp only [reLitsGood, Bool.and_eq_true] at hg
      simp only [noStar, Bool.and_eq_true] at hs
      simp only [reRun, List.mem_flatMap] at h
      obtain ⟨⟨q1, mid⟩, hpa, hpb⟩ := h
      obtain ⟨pre2, hcs2, hq2⟩ := reRun_suffix b q1 mid q rem hpb
      obtain ⟨pre1, hcs1, hq1⟩ :=
        reRun_suffix a p (pre ++ rem) q1 mid hpa
      have hpre : pre = pre1 ++ pre2 := by
        have hh : pre ++ rem = (pre1 ++ pre2) ++ rem := by
          rw [hcs1, hcs2, List.append_assoc]
        exact List.append_cancel_right hh
      rw [hcs2] at hpb
      rw [hcs1, hcs2] at hpa
      have ha2 := iha hg.1 hs.1 p pre1 (pre2 ++ rem) q1 hpa
      have hb2 := ihb hg.2 hs.2 q1 pre2 rem q hpb
      intro ch hch
      rw [hpre] at hch
      rcases List.mem_append.mp hch with hm | hm
      · exact ha2 ch hm
      · exact hb2 ch hm
  | alt a b iha ihb =>
      intro hg hs p pre rem q h
      simp only [reLitsGood, Bool.and_eq_true] at hg
      simp only [noStar, Bool.and_eq_true] at hs
      simp only [reRun, List.mem_append] at h
      rcases h with h | h
      · exact iha hg.1 hs.1 p pre rem q h
      · exact ihb hg.2 hs.2 p pre rem q h
  | opt a iha =>
      intro hg hs p pre rem q h
      simp only [reLitsGood] at hg
      simp only [noStar] at hs
      simp only [reRun, List.mem_append, List.mem_singleton,
        Prod.mk.injEq] at h
      rcases h with h | ⟨hq, hcs⟩
      · exact iha hg hs p pre rem q h
      · have hpre : pre = [] := pre_nil_of_append_self (by rw [← hcs])
        subst hpre
        simp
  | star a iha =>
      intro _ hs
      simp [noStar] at hs

lemma searchFrom_succ_none (r : RE)
    (hbol : ∀ (q : ℕ) (ds : List Char), q ≠ 0 → reRun r q ds = []) :
    ∀ (cs : List Char) (k : ℕ), searchFrom r (k+1) cs = none := by
  intro cs
  induction cs with
  | nil =>
      intro k
      rw [searchFrom, hbol (k+1) [] (Nat.succ_ne_zero k)]
  | cons c t ih =>
      intro k
      rw [searchFrom, hbol (k+1) (c :: t) (Nat.succ_ne_zero k)]
      exact ih (k+1)

lemma reSearchPos_bol_some (r : RE)
    (hbol : ∀ (q : ℕ) (ds : List Char), q ≠ 0 → reRun r q ds = [])
    (cs : List Char) (pr : ℕ × ℕ) (h : reSearchPos r cs = some pr) :
    ∃ (q : ℕ) (rem : List Char) (rest : List (ℕ × List Char)),
      reRun r 0 cs = (q, rem) :: rest ∧
      pr = (0, cs.length - rem.length) := by
  cases cs with
  | nil =>
      rw [reSearchPos, searchFrom] at h
      cases hrun : reRun r 0 [] with
      | nil => rw [hrun] at h; simp at h
      | cons q0 rest =>
          rw [hrun] at h
          simp only [Option.some_inj] at h
          exact ⟨q0.1, q0.2, rest, by simp [hrun], by rw [← h]⟩
  | cons c t =>
      rw [reSearchPos, searchFrom] at h
      cases hrun : reRun r 0 (c :: t) with
      | nil =>
          rw [hrun] at h
          rw [searchFrom_succ_none r hbol t 0] at h
          simp at h
      | cons q0 rest =>
          rw [hrun] at h
          simp only [Option.some_inj] at h
          exact ⟨q0.1, q0.2, rest, by simp [hrun], by rw [← h]⟩

lemma reRun_bolHead_empty (ts : List RE) :
    ∀ (q : ℕ) (ds : List Char), q ≠ 0 →
    reRun (seqFold (RE.bol :: ts)) q ds = [] := by
  intro q ds hq
  simp only [seqFold, List.foldr_cons, reRun]
  rw [if_neg hq]
  rfl

lemma replUnit_good {c : Char} (h : goodChar c = true) : replUnit c = [c] := by
  rw [replUnit, if_neg (goodChar_not_joint h)]

lemma replDotHyphen_good : ∀ (l : List Char),
    (∀ c ∈ l, goodChar c = true) → replDotHyphen l = l := by
  intro l
  induction l with
  | nil => intro _; rfl
  | cons c t ih =>
      intro h
      show replUnit c ++ replDotHyphen t = c :: t
      rw [replUnit_good (h c (List.mem_cons_self c t)),
        ih (fun d hd => h d (List.mem_cons_of_mem c hd))]
      rfl

lemma repl_split : ∀ (m pre rest : List Char),
    (∀ c ∈ m, plainChar c = true) →
    replDotHyphen m = pre ++ rest →
    (∀ ch ∈ pre, goodChar ch = true) →
    ∃ m1 m2, m = m1 ++ m2 ∧ pre = m1 ∧ rest = replDotHyphen m2 := by
  intro m
  induction m with
  | nil =>
      intro pre rest _ heq _
      have h0 : pre ++ rest = [] := by
        simpa [replDotHyphen] using heq.symm
      have h1 := List.append_eq_nil.mp h0
      exact ⟨[], [], rfl, h1.1, by simp [h1.2, replDotHyphen]⟩
  | cons c m' ih =>
      intro pre rest hplain heq hgood
      have hrepl : replDotHyphen (c :: m') = replUnit c ++ replDotHyphen m' :=
        rfl
      by_cases hj : c = '-' ∨ c = '.'
      · cases pre with
        | nil =>
            rw [List.nil_append] at heq
            exact ⟨[], c :: m', rfl, rfl, heq.symm⟩
        | cons p0 pre2 =>
            exfalso
            rw [hrepl, replUnit, if_pos hj] at heq
            have hp0 : p0 = '[' := by
              have := congrArg (fun l => l.head?) heq
              simpa using this.symm
            have := hgood p0 (List.mem_cons_self p0 pre2)
            rw [hp0] at this
            rw [goodChar, decide_eq_true_eq] at this
            simp only [show ('[').toNat = 91 from rfl] at this
            omega
      · cases pre with
        | nil =>
            rw [List.nil_append] at heq
            exact ⟨[], c :: m', rfl, rfl, heq.symm⟩
        | cons p0 pre2 =>
            rw [hrepl, replUnit, if_neg hj] at heq
            simp only [List.cons_append, List.singleton_append,
              List.cons.injEq] at heq
            obtain ⟨hp0, heq2⟩ := heq
            obtain ⟨m1, m2, hm, hpre, hrest⟩ :=
              ih pre2 rest (fun d hd => hplain d (List.mem_cons_of_mem c hd))
                heq2 (fun d hd => hgood d (List.mem_cons_of_mem p0 hd))
            exact ⟨c :: m1, m2, by rw [hm]; rfl, by rw [hpre, hp0], hrest⟩

lemma replTerms_match : ∀ (m : List Char) (p : ℕ),
    (p + m.length, ([] : List Char)) ∈ reRun (seqFold (replTerms m)) p m := by
  intro m
  induction m with
  | nil =>
      intro p
      simp [replTerms, seqFold, reRun]
  | cons c m' ih =>
      intro p
      have hstep : (p + 1, m') ∈ reRun (replTerm c) p (c :: m') := by
        by_cases hj : c = '-' ∨ c = '.'
        · simp only [replTerm, if_pos hj, reRun, List.mem_append]
          left
          have hcm : clsMatch false [ClsIt.ch ' ', ClsIt.ch c] c = true := by
            simp [clsMatch, clsItMatch, ciEq_refl]
          simp [hcm]
        · simp only [replTerm, if_neg hj, reRun]
          simp [ciEq_refl]
      have hcomp := reRun_seq_mem hstep (ih (p + 1))
      show (p + (c :: m').length, ([] : List Char)) ∈
        reRun (seqFold (replTerm c :: replTerms m')) p (c :: m')
      simp only [seqFold, List.foldr_cons]
      have hlen : p + (c :: m').length = p + 1 + m'.length := by
        simp [List.length_cons]; omega
      rw [hlen]
      exact hcomp

lemma parseCls_append : ∀ (cs s2 : List Char) (its : List ClsIt)
    (rest : List Char), parseCls cs = some (its, rest) →
    parseCls (cs ++ s2) = some (its, rest ++ s2) := by
  intro cs
  induction cs using parseCls.induct with
  | case1 =>
      intro s2 its rest h
      simp [parseCls] at h
  | case2 rest0 =>
      intro s2 its rest h
      simp only [parseCls, Option.some_inj, Prod.mk.injEq] at h
      obtain ⟨h1, h2⟩ := h
      subst h1; subst h2
      simp [parseCls]
  | case3 c rest0 halnum =>
      intro s2 its rest h
      simp only [parseCls, if_pos halnum] at h
      cases h
  | case4 c rest0 halnum ih =>
      intro s2 its rest h
      simp only [parseCls, if_neg halnum] at h
      cases hrec : parseCls rest0 with
      | none => rw [hrec] at h; simp at h
      | some pr =>
          rw [hrec] at h
          simp only [Option.map_some', Option.some_inj, Prod.mk.injEq] at h
          obtain ⟨h1, h2⟩ := h
          subst h1; subst h2
          show parseCls ('\\' :: c :: (rest0 ++ s2)) = _
          simp only [parseCls, if_neg halnum]
          rw [ih s2 pr.1 pr.2 (by rw [hrec])]
          rfl
  | case5 =>
      intro s2 its rest h
      simp [parseCls] at h
  | case6 c rest0 g1 g2 =>
      intro s2 its rest h
      have hc1 : ¬(c = ']') := fun hh => g1 hh
      have hc2 : ¬(c = '\\') := fun hh => g2 hh
      have hx : ∀ t : List Char, parseCls (c :: '-' :: ']' :: t) =
          some ([ClsIt.ch c, ClsIt.ch '-'], t) := by
        intro t
        simp [parseCls, hc1, hc2]
      rw [hx] at h
      simp only [Option.some_inj, Prod.mk.injEq] at h
      obtain ⟨h1, h2⟩ := h
      subst h1; subst h2
      show parseCls (c :: '-' :: ']' :: (rest0 ++ s2)) = _
      rw [hx]
  | case7 c rest0 g1 g2 g3 =>
      intro s2 its rest h
      have hc1 : ¬(c = ']') := fun hh => g1 hh
      have hc2 : ¬(c = '\\') := fun hh => g2 hh
      simp [parseCls, hc1, hc2] at h
  | case8 c d rest0 g1 g2 gd1 gd2 ih =>
      intro s2 its rest h
      have hc1 : ¬(c = ']') := fun hh => g1 hh
      have hc2 : ¬(c = '\\') := fun hh => g2 hh
      have hx : ∀ t : List Char, parseCls (c :: '-' :: d :: t) =
          (parseCls t).map (fun pr => (ClsIt.range c d :: pr.1, pr.2)) := by
        intro t
        simp [parseCls, hc1, hc2, gd1, gd2]
      rw [hx] at h
      cases hrec : parseCls rest0 with
      | none => rw [hrec] at h; simp at h
      | some pr =>
          rw [hrec] at h
          simp only [Option.map_some', Option.some_inj, Prod.mk.injEq] at h
          obtain ⟨h1, h2⟩ := h
          subst h1; subst h2
          show parseCls (c :: '-' :: d :: (rest0 ++ s2)) = _
          rw [hx]
          rw [ih s2 pr.1 pr.2 (by rw [hrec])]
          rfl
  | case9 c rest0 g1 g2 g3 g4 ih =>
      intro s2 its rest h
      have hc1 : ¬(c = ']') := fun hh => g1 hh
      have hc2 : c ≠ '\\' := by
        intro hh
        cases hre : rest0 with
        | nil => exact g3 hh hre
        | cons r0 rt => exact g2 r0 rt hh hre
      have hx : ∀ (t : List Char), t.head? ≠ some '-' →
          parseCls (c :: t) =
          (parseCls t).map (fun pr => (ClsIt.ch c :: pr.1, pr.2)) := by
        intro t ht1
        cases t with
        | nil => simp [parseCls, hc1, hc2]
        | cons t0 tt =>
            have ht0 : ¬(t0 = '-') := by
              intro hh; exact ht1 (by subst hh; rfl)
            cases tt with
            | nil => simp [parseCls, hc1, hc2, ht0]
            | cons t1 ttt => simp [parseCls, hc1, hc2, ht0]
      cases rest0 with
      | nil =>
          have hz : parseCls [c] = none := by
            simp [parseCls, hc1, hc2]
          rw [hz] at h
          cases h
      | cons r0 rt =>
          have hr0 : r0 ≠ '-' := by
            intro hh
            subst hh
            cases rt with
            | nil =>
                have hdash : parseCls ([c, '-'] : List Char) = none := by
                  simp [parseCls, hc1, hc2]
                rw [hdash] at h
                cases h
            | cons d rest1 => exact g4 d rest1 rfl
          rw [hx (r0 :: rt) (by simp [hr0])] at h
          cases hrec : parseCls (r0 :: rt) with
          | none => rw [hrec] at h; simp at h
          | some pr =>
              rw [hrec] at h
              simp only [Option.map_some', Option.some_inj,
                Prod.mk.injEq] at h
              obtain ⟨h1, h2⟩ := h
              subst h1; subst h2
              show parseCls (c :: (r0 :: (rt ++ s2))) = _
              rw [hx (r0 :: (rt ++ s2)) (by simp [hr0])]
              have ih2 := ih s2 pr.1 pr.2 (by rw [hrec])
              rw [List.cons_append] at ih2
              rw [ih2]
              rfl

lemma parseAtomF_brNotCaret (pAlt : List Char → Option (RE × List Char))
    (r0 : Char) (hr0 : ¬(r0 = '^')) (rt : List Char) :
    parseAtomF pAlt ('[' :: r0 :: rt) =
      Option.map (fun pr => (RE.cls false pr.1, pr.2)) (parseCls (r0 :: rt)) := by
  simp only [parseAtomF]
  split
  case h_3 =>
    rename_i heq
    simp only [List.cons.injEq] at heq
    exact absurd heq.2.1 hr0
  case h_4 =>
    rename_i heq
    simp only [List.cons.injEq, true_and] at heq
    rw [← heq]
  case h_9 =>
    rename_i g6 g5 g4 g3 g2 g1 g0 heq
    simp only [List.cons.injEq] at heq
    exact absurd heq.1.symm g4
  all_goals (rename_i heq; simp at heq)

lemma parseAtomF_other (pAlt : List Char → Option (RE × List Char))
    (c : Char) (rest0 : List Char) (hc1 : ¬(c = '(')) (hc2 : ¬(c = '['))
    (hc3 : ¬(c = '\\')) (hc4 : ¬(c = '^')) (hc5 : ¬(c = '$'))
    (hc6 : ¬(c = '.')) :
    parseAtomF pAlt (c :: rest0) =
      if isQuant c = true ∨ c = ')' ∨ c = '|' ∨ c = '\\' then none
      else some (RE.lit c, rest0) := by
  simp only [parseAtomF]
  split
  case h_1 => rename_i heq; simp at heq
  case h_2 =>
    rename_i heq
    simp only [List.cons.injEq] at heq
    exact absurd heq.1 hc1
  case h_3 =>
    rename_i heq
    simp only [List.cons.injEq] at heq
    exact absurd heq.1 hc2
  case h_4 =>
    rename_i heq
    simp only [List.cons.injEq] at heq
    exact absurd heq.1 hc2
  case h_5 =>
    rename_i heq
    simp only [List.cons.injEq] at heq
    exact absurd heq.1 hc3
  case h_6 =>
    rename_i heq
    simp only [List.cons.injEq] at heq
    exact absurd heq.1 hc4
  case h_7 =>
    rename_i heq
    simp only [List.cons.injEq] at heq
    exact absurd heq.1 hc5
  case h_8 =>
    rename_i heq
    simp only [List.cons.injEq] at heq
    exact absurd heq.1 hc6
  case h_9 =>
    rename_i g6 g5 g4 g3 g2 g1 g0 heq
    simp only [List.cons.injEq] at heq
    rw [← heq.1, ← heq.2]

lemma parseAtomF_append (pAlt : List Char → Option (RE × List Char))
    (hne : keepsTail pAlt) (hnil : nilStops pAlt) :
    ∀ (cs s2 : List Char) (a : RE) (rest : List Char),
      parseAtomF pAlt cs = some (a, rest) →
      parseAtomF pAlt (cs ++ s2) = some (a, rest ++ s2) := by
  intro cs s2 a rest h
  cases cs with
  | nil => simp [parseAtomF] at h
  | cons c rest0 =>
      by_cases hc1 : c = '('
      · subst hc1
        simp only [parseAtomF] at h
        split at h
        · cases h
        · rename_i g1
          cases hp0 : pAlt rest0 with
          | none => rw [hp0] at h; simp at h
          | some pr =>
              obtain ⟨r1, rem1⟩ := pr
              rw [hp0] at h
              cases rem1 with
              | nil =>
                  have h2 : (none : Option (RE × List Char)) =
                    some (a, rest) := h
                  cases h2
              | cons e1 erest =>
                  by_cases he1 : e1 = ')'
                  · subst he1
                    have h2 : some (r1, erest) = some (a, rest) := h
                    simp only [Option.some_inj, Prod.mk.injEq] at h2
                    cases rest0 with
                    | nil =>
                        exact absurd (hnil r1 (')' :: erest) hp0)
                          (List.cons_ne_nil _ _)
                    | cons r0 rt =>
                        have hr0 : ¬(r0 = '?') := by
                          intro hh
                          exact g1 rt (by rw [hh])
                        have hpa := hne (r0 :: rt) s2 r1 ')' erest hp0
                        show parseAtomF pAlt ('(' :: ((r0 :: rt) ++ s2)) = _
                        simp only [parseAtomF]
                        split
                        · rename_i g2
                          exfalso
                          simp only [List.cons_append,
                            List.cons.injEq] at g2
                          exact hr0 g2.1
                        · rw [show (r0 :: rt) ++ s2 =
                            r0 :: (rt ++ s2) from rfl] at hpa ⊢
                          rw [hpa]
                          rw [← h2.1, ← h2.2]
                          rfl
                  · exfalso
                    simp [he1] at h
      · by_cases hc2 : c = '['
        · subst hc2
          cases rest0 with
          | nil => simp [parseAtomF, parseCls] at h
          | cons r0 rt =>
              by_cases hr0 : r0 = '^'
              · subst hr0
                cases hpc : parseCls rt with
                | none => simp [parseAtomF, hpc] at h
                | some pr =>
                    obtain ⟨its, rem1⟩ := pr
                    simp only [parseAtomF, hpc, Option.map_some',
                      Option.some_inj, Prod.mk.injEq] at h
                    show parseAtomF pAlt ('[' :: ('^' :: (rt ++ s2))) = _
                    simp only [parseAtomF,
                      parseCls_append rt s2 its rem1 hpc, Option.map_some']
                    rw [← h.1, ← h.2]
              · rw [parseAtomF_brNotCaret pAlt r0 hr0 rt] at h
                cases hpc : parseCls (r0 :: rt) with
                | none => rw [hpc] at h; simp at h
                | some pr =>
                    obtain ⟨its, rem1⟩ := pr
                    rw [hpc] at h
                    simp only [Option.map_some', Option.some_inj,
                      Prod.mk.injEq] at h
                    have hpc2 := parseCls_append (r0 :: rt) s2 its rem1 hpc
                    rw [List.cons_append] at hpc2
                    show parseAtomF pAlt ('[' :: (r0 :: (rt ++ s2))) = _
                    rw [parseAtomF_brNotCaret pAlt r0 hr0 (rt ++ s2), hpc2]
                    simp only [Option.map_some']
                    rw [← h.1, ← h.2]
        · by_cases hc3 : c = '\\'
          · subst hc3
            cases rest0 with
            | nil => simp [parseAtomF] at h
            | cons c2 rt =>
                by_cases halnum : c2.isAlphanum
                · simp [parseAtomF, halnum] at h
                · simp only [parseAtomF, if_neg halnum, Option.some_inj,
                    Prod.mk.injEq] at h
                  show parseAtomF pAlt ('\\' :: c2 :: (rt ++ s2)) = _
                  simp only [parseAtomF, if_neg halnum]
                  rw [← h.1, ← h.2]
          · by_cases hc4 : c = '^'
            · subst hc4
              simp only [parseAtomF, Option.some_inj, Prod.mk.injEq] at h
              show parseAtomF pAlt ('^' :: (rest0 ++ s2)) = _
              simp only [parseAtomF]
              rw [← h.1, ← h.2]
            · by_cases hc5 : c = '$'
              · subst hc5
                simp only [parseAtomF, Option.some_inj, Prod.mk.injEq] at h
                show parseAtomF pAlt ('$' :: (rest0 ++ s2)) = _
                simp only [parseAtomF]
                rw [← h.1, ← h.2]
              · by_cases hc6 : c = '.'
                · subst hc6
                  simp only [parseAtomF, Option.some_inj,
                    Prod.mk.injEq] at h
                  show parseAtomF pAlt ('.' :: (rest0 ++ s2)) = _
                  simp only [parseAtomF]
                  rw [← h.1, ← h.2]
                · by_cases hq1 : c = '?'
                  · subst hq1; simp [parseAtomF, isQuant] at h
                  · by_cases hq2 : c = '*'
                    · subst hq2; simp [parseAtomF, isQuant] at h
                    · by_cases hq3 : c = '+'
                      · subst hq3; simp [parseAtomF, isQuant] at h
                      · by_cases hq4 : c = ')'
                        · subst hq4; simp [parseAtomF] at h
                        · by_cases hq5 : c = '|'
                          · subst hq5; simp [parseAtomF] at h
                          · have hqf : isQuant c = false := by
                              simp [isQuant, hq1, hq2, hq3]
                            have hcond : ¬(isQuant c = true ∨ c = ')' ∨
                                c = '|' ∨ c = '\\') := by
                              simp [hqf, hq4, hq5, hc3]
                            rw [parseAtomF_other pAlt c rest0 hc1 hc2 hc3
                              hc4 hc5 hc6, if_neg hcond] at h
                            simp only [Option.some_inj,
                              Prod.mk.injEq] at h
                            show parseAtomF pAlt (c :: (rest0 ++ s2)) = _
                            rw [parseAtomF_other pAlt c (rest0 ++ s2) hc1
                              hc2 hc3 hc4 hc5 hc6, if_neg hcond]
                            rw [← h.1, ← h.2]

lemma replUnit_ne_nil (c : Char) : replUnit c ≠ [] := by
  rw [replUnit]
  split <;> simp

lemma replDotHyphen_len_ge : ∀ (m : List Char),
    m.length ≤ (replDotHyphen m).length := by
  intro m
  induction m with
  | nil => simp [replDotHyphen]
  | cons c t ih =>
      show (c :: t).length ≤ (replUnit c ++ replDotHyphen t).length
      rw [List.length_append, List.length_cons]
      have h1 : 1 ≤ (replUnit c).length := by
        cases hr : replUnit c with
        | nil => exact absurd hr (replUnit_ne_nil c)
        | cons a b => simp
      omega

lemma replDotHyphen_headNQ (m : List Char)
    (hplain : ∀ c ∈ m, plainChar c = true) : headNQ (replDotHyphen m) := by
  intro c t heq
  cases m with
  | nil => simp [replDotHyphen] at heq
  | cons c0 m' =>
      have hrepl : replDotHyphen (c0 :: m') =
          replUnit c0 ++ replDotHyphen m' := rfl
      rw [hrepl] at heq
      by_cases hj : c0 = '-' ∨ c0 = '.'
      · rw [replUnit, if_pos hj] at heq
        have hc : c = '[' := by
          have := congrArg (fun l => l.head?) heq.symm
          simpa using this
        rw [hc]
        rfl
      · rw [replUnit, if_neg hj] at heq
        have hc : c = c0 := by
          have := congrArg (fun l => l.head?) heq.symm
          simpa using this
        rw [hc]
        exact plain_not_quant (hplain c0 (List.mem_cons_self c0 m'))

lemma parseTermF_noQuant (pAlt : List Char → Option (RE × List Char))
    (cs : List Char) (a : RE) (arest : List Char)
    (ha : parseAtomF pAlt cs = some (a, arest)) (hq : headNQ arest) :
    parseTermF pAlt cs = some (a, arest) := by
  simp only [parseTermF, ha]
  split
  case h_1 => rename_i x; have := hq '?' x rfl; simp [isQuant] at this
  case h_2 => rename_i x; have := hq '*' x rfl; simp [isQuant] at this
  case h_3 => rename_i x; have := hq '+' x rfl; simp [isQuant] at this
  case h_4 => rfl

lemma parseTermF_keepsTail (pAlt : List Char → Option (RE × List Char))
    (hne : keepsTail pAlt) (hnil : nilStops pAlt) :
    keepsTail (parseTermF pAlt) := by
  intro cs s2 r c rest h
  cases ha : parseAtomF pAlt cs with
  | none => simp only [parseTermF, ha] at h; cases h
  | some pr =>
      obtain ⟨a, arest⟩ := pr
      have ha2 := parseAtomF_append pAlt hne hnil cs s2 a arest ha
      cases arest with
      | nil =>
          have hT : parseTermF pAlt cs = some (a, []) := by
            simp only [parseTermF, ha]
          rw [hT] at h
          simp at h
      | cons c0 ar =>
          have ha3 : parseAtomF pAlt (cs ++ s2) =
              some (a, c0 :: (ar ++ s2)) := by simpa using ha2
          by_cases h0 : c0 = '?'
          · subst h0
            have hT : parseTermF pAlt cs = some (RE.opt a, ar) := by
              simp only [parseTermF, ha]
            rw [hT] at h
            simp only [Option.some_inj, Prod.mk.injEq] at h
            have hT2 : parseTermF pAlt (cs ++ s2) =
                some (RE.opt a, ar ++ s2) := by
              simp only [parseTermF, ha3]
            rw [hT2, h.1, h.2]
            rfl
          · by_cases h1 : c0 = '*'
            · subst h1
              have hT : parseTermF pAlt cs = some (RE.star a, ar) := by
                simp only [parseTermF, ha]
              rw [hT] at h
              simp only [Option.some_inj, Prod.mk.injEq] at h
              have hT2 : parseTermF pAlt (cs ++ s2) =
                  some (RE.star a, ar ++ s2) := by
                simp only [parseTermF, ha3]
              rw [hT2, h.1, h.2]
              rfl
            · by_cases h2 : c0 = '+'
              · subst h2
                have hT : parseTermF pAlt cs =
                    some (RE.seq a (RE.star a), ar) := by
                  simp only [parseTermF, ha]
                rw [hT] at h
                simp only [Option.some_inj, Prod.mk.injEq] at h
                have hT2 : parseTermF pAlt (cs ++ s2) =
                    some (RE.seq a (RE.star a), ar ++ s2) := by
                  simp only [parseTermF, ha3]
                rw [hT2, h.1, h.2]
                rfl
              · have hqc0 : isQuant c0 = false := by
                  simp [isQuant, h0, h1, h2]
                have hnq : headNQ (c0 :: ar) := by
                  intro d t hdt
                  rw [← (List.cons.inj hdt).1]
                  exact hqc0
                have hT := parseTermF_noQuant pAlt cs a (c0 :: ar) ha hnq
                rw [hT] at h
                simp only [Option.some_inj, Prod.mk.injEq,
                  List.cons.injEq] at h
                have hnq2 : headNQ (c0 :: (ar ++ s2)) := by
                  intro d t hdt
                  rw [← (List.cons.inj hdt).1]
                  exact hqc0
                have hT2 := parseTermF_noQuant pAlt (cs ++ s2) a
                  (c0 :: (ar ++ s2)) ha3 hnq2
                rw [hT2, h.1, h.2.1, h.2.2]

lemma parseTermF_nilKeep (pAlt : List Char → Option (RE × List Char))
    (hne : keepsTail pAlt) (hnil : nilStops pAlt) (s2 : List Char)
    (hq2 : headNQ s2) :
    ∀ (cs : List Char) (t : RE), parseTermF pAlt cs = some (t, []) →
    parseTermF pAlt (cs ++ s2) = some (t, s2) := by
  intro cs t h
  cases ha : parseAtomF pAlt cs with
  | none => simp only [parseTermF, ha] at h; cases h
  | some pr =>
      obtain ⟨a, arest⟩ := pr
      have ha2 := parseAtomF_append pAlt hne hnil cs s2 a arest ha
      cases arest with
      | nil =>
          have hT : parseTermF pAlt cs = some (a, []) := by
            simp only [parseTermF, ha]
          rw [hT] at h
          simp only [Option.some_inj, Prod.mk.injEq] at h
          have ha3 : parseAtomF pAlt (cs ++ s2) = some (a, s2) := by
            simpa using ha2
          rw [parseTermF_noQuant pAlt (cs ++ s2) a s2 ha3 hq2, h.1]
      | cons c0 ar =>
          by_cases h0 : c0 = '?'
          · subst h0
            have hT : parseTermF pAlt cs = some (RE.opt a, ar) := by
              simp only [parseTermF, ha]
            rw [hT] at h
            simp only [Option.some_inj, Prod.mk.injEq] at h
            have ha3 : parseAtomF pAlt (cs ++ s2) =
                some (a, '?' :: (ar ++ s2)) := by simpa using ha2
            have hT2 : parseTermF pAlt (cs ++ s2) =
                some (RE.opt a, ar ++ s2) := by
              simp only [parseTermF, ha3]
            rw [hT2, h.1, h.2]
            rfl
          · by_cases h1 : c0 = '*'
            · subst h1
              have hT : parseTermF pAlt cs = some (RE.star a, ar) := by
                simp only [parseTermF, ha]
              rw [hT] at h
              simp only [Option.some_inj, Prod.mk.injEq] at h
              have ha3 : parseAtomF pAlt (cs ++ s2) =
                  some (a, '*' :: (ar ++ s2)) := by simpa using ha2
              have hT2 : parseTermF pAlt (cs ++ s2) =
                  some (RE.star a, ar ++ s2) := by
                simp only [parseTermF, ha3]
              rw [hT2, h.1, h.2]
              rfl
            · by_cases h2 : c0 = '+'
              · subst h2
                have hT : parseTermF pAlt cs =
                    some (RE.seq a (RE.star a), ar) := by
                  simp only [parseTermF, ha]
                rw [hT] at h
                simp only [Option.some_inj, Prod.mk.injEq] at h
                have ha3 : parseAtomF pAlt (cs ++ s2) =
                    some (a, '+' :: (ar ++ s2)) := by simpa using ha2
                have hT2 : parseTermF pAlt (cs ++ s2) =
                    some (RE.seq a (RE.star a), ar ++ s2) := by
                  simp only [parseTermF, ha3]
                rw [hT2, h.1, h.2]
                rfl
              · have hqc0 : isQuant c0 = false := by
                  simp [isQuant, h0, h1, h2]
                have hnq : headNQ (c0 :: ar) := by
                  intro d t2 hdt
                  rw [← (List.cons.inj hdt).1]
                  exact hqc0
                have hT := parseTermF_noQuant pAlt cs a (c0 :: ar) ha hnq
                rw [hT] at h
                simp at h

lemma parseSeqL_cons (pT : List Char → Option (RE × List Char))
    (f2 : ℕ) (c : Char) (cs : List Char) (hstop : isSeqStop c = false) :
    parseSeqL pT (f2 + 1) (c :: cs) =
      match pT (c :: cs) with
      | none => none
      | some (t, rest) =>
          match parseSeqL pT f2 rest with
          | none => none
          | some (ts, rest2) => some (t :: ts, rest2) := by
  rw [parseSeqL, if_neg (by simp [hstop])]

lemma parseSeqL_nil (pT : List Char → Option (RE × List Char)) (f : ℕ) :
    parseSeqL pT f [] = some ([], []) := by
  rw [parseSeqL.eq_def]

lemma parseSeqL_stop (pT : List Char → Option (RE × List Char)) (f : ℕ)
    (c : Char) (cs : List Char) (hstop : isSeqStop c = true) :
    parseSeqL pT f (c :: cs) = some ([], c :: cs) := by
  rw [parseSeqL.eq_def]
  simp [hstop]

lemma parseSeqL_zero_cons (pT : List Char → Option (RE × List Char))
    (c : Char) (cs : List Char) (hstop : isSeqStop c = false) :
    parseSeqL pT 0 (c :: cs) = none := by
  rw [parseSeqL.eq_def]
  simp [hstop]

lemma parseSeqL_mono (pT : List Char → Option (RE × List Char)) :
    ∀ (f1 f2 : ℕ) (s : List Char) (out : List RE × List Char),
    f1 ≤ f2 → parseSeqL pT f1 s = some out → parseSeqL pT f2 s = some out := by
  intro f1
  induction f1 with
  | zero =>
      intro f2 s out hle h
      cases s with
      | nil => rw [parseSeqL_nil] at h ⊢; exact h
      | cons c cs =>
          cases hstop : isSeqStop c
          · rw [parseSeqL_zero_cons pT c cs hstop] at h
            cases h
          · rw [parseSeqL_stop pT 0 c cs hstop] at h
            rw [parseSeqL_stop pT f2 c cs hstop]
            exact h
  | succ g1 ih =>
      intro f2 s out hle h
      cases s with
      | nil => rw [parseSeqL_nil] at h ⊢; exact h
      | cons c cs =>
          cases hstop : isSeqStop c
          · cases f2 with
            | zero => omega
            | succ g2 =>
                rw [parseSeqL_cons pT g1 c cs hstop] at h
                rw [parseSeqL_cons pT g2 c cs hstop]
                cases hp : pT (c :: cs) with
                | none =>
                    rw [hp] at h
                    simp at h
                | some pr =>
                    obtain ⟨t, rest⟩ := pr
                    rw [hp] at h
                    have h2 : (match parseSeqL pT g1 rest with
                        | none => none
                        | some (ts, rest2) => some (t :: ts, rest2)) =
                        some out := h
                    show (match parseSeqL pT g2 rest with
                        | none => none
                        | some (ts, rest2) => some (t :: ts, rest2)) =
                        some out
                    cases hrec : parseSeqL pT g1 rest with
                    | none =>
                        rw [hrec] at h2
                        simp at h2
                    | some out2 =>
                        obtain ⟨ts, rest2⟩ := out2
                        rw [hrec] at h2
                        rw [ih g2 rest (ts, rest2) (by omega) hrec]
                        exact h2
          · rw [parseSeqL_stop pT (g1+1) c cs hstop] at h
            rw [parseSeqL_stop pT f2 c cs hstop]
            exact h

lemma parseSeqL_keepsTail (pT : List Char → Option (RE × List Char))
    (kt : keepsTail pT) (s2 : List Char) :
    ∀ (f : ℕ) (cs : List Char) (ts : List RE) (c : Char) (rest : List Char),
    parseSeqL pT f cs = some (ts, c :: rest) →
    parseSeqL pT f (cs ++ s2) = some (ts, c :: (rest ++ s2)) := by
  intro f
  induction f with
  | zero =>
      intro cs ts c rest h
      cases cs with
      | nil => rw [parseSeqL_nil] at h; simp at h
      | cons c0 cs0 =>
          cases hstop : isSeqStop c0
          · rw [parseSeqL_zero_cons pT c0 cs0 hstop] at h
            cases h
          · rw [parseSeqL_stop pT 0 c0 cs0 hstop] at h
            simp only [Option.some_inj, Prod.mk.injEq,
              List.cons.injEq] at h
            show parseSeqL pT 0 (c0 :: (cs0 ++ s2)) = _
            rw [parseSeqL_stop pT 0 c0 (cs0 ++ s2) hstop]
            rw [h.1, ← h.2.1, ← h.2.2]
  | succ g ih =>
      intro cs ts c rest h
      cases cs with
      | nil => rw [parseSeqL_nil] at h; simp at h
      | cons c0 cs0 =>
          cases hstop : isSeqStop c0
          · rw [parseSeqL_cons pT g c0 cs0 hstop] at h
            show parseSeqL pT (g+1) (c0 :: (cs0 ++ s2)) = _
            rw [parseSeqL_cons pT g c0 (cs0 ++ s2) hstop]
            cases hp : pT (c0 :: cs0) with
            | none => rw [hp] at h; simp at h
            | some pr =>
                obtain ⟨t, trest⟩ := pr
                rw [hp] at h
                have h2 : (match parseSeqL pT g trest with
                    | none => none
                    | some (ts1, r2) => some (t :: ts1, r2)) =
                    some (ts, c :: rest) := h
                cases hrec : parseSeqL pT g trest with
                | none => rw [hrec] at h2; simp at h2
                | some out2 =>
                    obtain ⟨ts1, r2⟩ := out2
                    rw [hrec] at h2
                    simp only [Option.some_inj, Prod.mk.injEq] at h2
                    cases trest with
                    | nil =>
                        rw [parseSeqL_nil] at hrec
                        simp only [Option.some_inj, Prod.mk.injEq] at hrec
                        exact absurd (hrec.2.trans h2.2).symm
                          (List.cons_ne_nil c rest)
                    | cons c1 tr =>
                        have hp2 := kt (c0 :: cs0) s2 t c1 tr hp
                        rw [List.cons_append] at hp2
                        rw [hp2]
                        rw [h2.2] at hrec
                        have hrec2 := ih (c1 :: tr) ts1 c rest hrec
                        rw [List.cons_append] at hrec2
                        show (match parseSeqL pT g (c1 :: (tr ++ s2)) with
                            | none => none
                            | some (ts1, r2) => some (t :: ts1, r2)) =
                          some (ts, c :: (rest ++ s2))
                        rw [hrec2, ← h2.1]
          · rw [parseSeqL_stop pT (g+1) c0 cs0 hstop] at h
            simp only [Option.some_inj, Prod.mk.injEq,
              List.cons.injEq] at h
            show parseSeqL pT (g+1) (c0 :: (cs0 ++ s2)) = _
            rw [parseSeqL_stop pT (g+1) c0 (cs0 ++ s2) hstop]
            rw [h.1, ← h.2.1, ← h.2.2]

lemma parseSeqL_append (pT : List Char → Option (RE × List Char))
    (s2 : List Char) (kt : keepsTail pT)
    (nk : ∀ (cs : List Char) (t : RE), pT cs = some (t, []) →
      pT (cs ++ s2) = some (t, s2)) :
    ∀ (f1 : ℕ) (s1 : List Char) (ts1 : List RE),
    parseSeqL pT f1 s1 = some (ts1, []) →
    ∀ (f2 : ℕ) (ts2 : List RE) (rest2 : List Char),
    parseSeqL pT f2 s2 = some (ts2, rest2) →
    parseSeqL pT (f1 + f2) (s1 ++ s2) = some (ts1 ++ ts2, rest2) := by
  intro f1
  induction f1 with
  | zero =>
      intro s1 ts1 h f2 ts2 rest2 hs2
      cases s1 with
      | nil =>
          rw [parseSeqL_nil] at h
          simp only [Option.some_inj, Prod.mk.injEq] at h
          rw [List.nil_append, ← h.1, List.nil_append]
          exact parseSeqL_mono pT f2 (0 + f2) s2 (ts2, rest2)
            (by omega) hs2
      | cons c0 cs0 =>
          cases hstop : isSeqStop c0
          · rw [parseSeqL_zero_cons pT c0 cs0 hstop] at h
            cases h
          · rw [parseSeqL_stop pT 0 c0 cs0 hstop] at h
            simp at h
  | succ g ih =>
      intro s1 ts1 h f2 ts2 rest2 hs2
      cases s1 with
      | nil =>
          rw [parseSeqL_nil] at h
          simp only [Option.some_inj, Prod.mk.injEq] at h
          rw [List.nil_append, ← h.1, List.nil_append]
          exact parseSeqL_mono pT f2 (g + 1 + f2) s2 (ts2, rest2)
            (by omega) hs2
      | cons c0 cs0 =>
          cases hstop : isSeqStop c0
          · rw [parseSeqL_cons pT g c0 cs0 hstop] at h
            have hfa : g + 1 + f2 = (g + f2) + 1 := by omega
            rw [hfa]
            show parseSeqL pT ((g + f2) + 1) (c0 :: (cs0 ++ s2)) = _
            rw [parseSeqL_cons pT (g + f2) c0 (cs0 ++ s2) hstop]
            cases hp : pT (c0 :: cs0) with
            | none => rw [hp] at h; simp at h
            | some pr =>
                obtain ⟨t, trest⟩ := pr
                rw [hp] at h
                have h2 : (match parseSeqL pT g trest with
                    | none => none
                    | some (ts0, r2) => some (t :: ts0, r2)) =
                    some (ts1, []) := h
                cases hrec : parseSeqL pT g trest with
                | none => rw [hrec] at h2; simp at h2
                | some out2 =>
                    obtain ⟨tsr, restr⟩ := out2
                    rw [hrec] at h2
                    simp only [Option.some_inj, Prod.mk.injEq] at h2
                    have hrestr : restr = [] := h2.2
                    rw [hrestr] at hrec
                    cases trest with
                    | nil =>
                        have hp2 := nk (c0 :: cs0) t hp
                        rw [List.cons_append] at hp2
                        rw [hp2]
                        rw [parseSeqL_nil] at hrec
                        simp only [Option.some_inj, Prod.mk.injEq] at hrec
                        show (match parseSeqL pT (g + f2) s2 with
                            | none => none
                            | some (ts0, r2) => some (t :: ts0, r2)) =
                          some (ts1 ++ ts2, rest2)
                        rw [parseSeqL_mono pT f2 (g + f2) s2 (ts2, rest2)
                          (by omega) hs2]
                        rw [← h2.1, ← hrec.1]
                        rfl
                    | cons c1 tr =>
                        have hp2 := kt (c0 :: cs0) s2 t c1 tr hp
                        rw [List.cons_append] at hp2
                        rw [hp2]
                        have hrec2 := ih (c1 :: tr) tsr hrec f2 ts2 rest2 hs2
                        rw [List.cons_append] at hrec2
                        show (match parseSeqL pT (g + f2)
                              (c1 :: (tr ++ s2)) with
                            | none => none
                            | some (ts0, r2) => some (t :: ts0, r2)) =
                          some (ts1 ++ ts2, rest2)
                        rw [hrec2, ← h2.1]
                        rfl
          · rw [parseSeqL_stop pT (g+1) c0 cs0 hstop] at h
            simp at h

lemma parseAtomF_indep (p1 p2 : List Char → Option (RE × List Char))
    (c : Char) (rest0 : List Char) (hc : ¬(c = '(')) :
    parseAtomF p1 (c :: rest0) = parseAtomF p2 (c :: rest0) := by
  by_cases h2 : c = '['
  · subst h2
    cases rest0 with
    | nil => rfl
    | cons r0 rt =>
        by_cases hr : r0 = '^'
        · subst hr; rfl
        · rw [parseAtomF_brNotCaret p1 r0 hr rt,
            parseAtomF_brNotCaret p2 r0 hr rt]
  · by_cases h3 : c = '\\'
    · subst h3
      cases rest0 with
      | nil => rfl
      | cons c2 rt => rfl
    · by_cases h4 : c = '^'
      · subst h4; rfl
      · by_cases h5 : c = '$'
        · subst h5; rfl
        · by_cases h6 : c = '.'
          · subst h6; rfl
          · rw [parseAtomF_other p1 c rest0 hc h2 h3 h4 h5 h6,
              parseAtomF_other p2 c rest0 hc h2 h3 h4 h5 h6]

lemma parseAtomF_paren (p : List Char → Option (RE × List Char))
    (rest0 : List Char) (hq : ∀ tail, rest0 ≠ '?' :: tail) :
    parseAtomF p ('(' :: rest0) =
      match p rest0 with
      | some (r, ')' :: rest2) => some (r, rest2)
      | _ => none := by
  simp only [parseAtomF]

lemma parseAtomF_congr (p1 p2 : List Char → Option (RE × List Char))
    (hle : leP p1 p2) :
    ∀ (cs : List Char) (out : RE × List Char),
    parseAtomF p1 cs = some out → parseAtomF p2 cs = some out := by
  intro cs out h
  cases cs with
  | nil => simp [parseAtomF] at h
  | cons c rest0 =>
      by_cases hc : c = '('
      · subst hc
        simp only [parseAtomF] at h
        split at h
        · cases h
        · rename_i g1
          have hq : ∀ tail, rest0 ≠ '?' :: tail := fun tl hh => g1 tl hh
          rw [parseAtomF_paren p2 rest0 hq]
          cases hp : p1 rest0 with
          | none => rw [hp] at h; simp at h
          | some pr =>
              obtain ⟨r1, rem⟩ := pr
              rw [hp] at h
              rw [hle rest0 (r1, rem) hp]
              exact h
      · rw [← parseAtomF_indep p1 p2 c rest0 hc]
        exact h

lemma parseTermF_congr (p1 p2 : List Char → Option (RE × List Char))
    (hle : leP p1 p2) : leP (parseTermF p1) (parseTermF p2) := by
  intro cs out h
  simp only [parseTermF] at h ⊢
  cases ha : parseAtomF p1 cs with
  | none => rw [ha] at h; simp at h
  | some pr =>
      rw [ha] at h
      rw [parseAtomF_congr p1 p2 hle cs pr ha]
      exact h

lemma parseSeqL_congr (pT1 pT2 : List Char → Option (RE × List Char))
    (hle : leP pT1 pT2) :
    ∀ (f : ℕ) (s : List Char) (out : List RE × List Char),
    parseSeqL pT1 f s = some out → parseSeqL pT2 f s = some out := by
  intro f
  induction f with
  | zero =>
      intro s out h
      cases s with
      | nil => rw [parseSeqL_nil] at h ⊢; exact h
      | cons c cs =>
          cases hstop : isSeqStop c
          · rw [parseSeqL_zero_cons pT1 c cs hstop] at h
            cases h
          · rw [parseSeqL_stop pT1 0 c cs hstop] at h
            rw [parseSeqL_stop pT2 0 c cs hstop]
            exact h
  | succ g ih =>
      intro s out h
      cases s with
      | nil => rw [parseSeqL_nil] at h ⊢; exact h
      | cons c cs =>
          cases hstop : isSeqStop c
          · rw [parseSeqL_cons pT1 g c cs hstop] at h
            rw [parseSeqL_cons pT2 g c cs hstop]
            cases hp : pT1 (c :: cs) with
            | none => rw [hp] at h; simp at h
            | some pr =>
                obtain ⟨t, rest⟩ := pr
                rw [hp] at h
                rw [hle (c :: cs) (t, rest) hp]
                have h2 : (match parseSeqL pT1 g rest with
                    | none => none
                    | some (ts, r2) => some (t :: ts, r2)) = some out := h
                show (match parseSeqL pT2 g rest with
                    | none => none
                    | some (ts, r2) => some (t :: ts, r2)) = some out
                cases hrec : parseSeqL pT1 g rest with
                | none => rw [hrec] at h2; simp at h2
                | some out2 =>
                    rw [hrec] at h2
                    rw [ih rest out2 hrec]
                    exact h2
          · rw [parseSeqL_stop pT1 (g+1) c cs hstop] at h
            rw [parseSeqL_stop pT2 (g+1) c cs hstop]
            exact h

lemma parseAlt_succ (g : ℕ) (cs : List Char) :
    parseAlt (g + 1) cs =
      match parseSeqL (parseTermF (fun ds => parseAlt g ds))
          (cs.length + 1) cs with
      | none => none
      | some (ts, '|' :: rest2) =>
          match parseAlt g rest2 with
          | none => none
          | some (r2, rest3) => some (RE.alt (seqFold ts) r2, rest3)
      | some (ts, rest) => some (seqFold ts, rest) := rfl

lemma parseAltStep_bar (g : ℕ) (ts : List RE) (r2 : List Char) :
    (match (some (ts, '|' :: r2) : Option (List RE × List Char)) with
      | none => none
      | some (ts, '|' :: rest2) =>
          match parseAlt g rest2 with
          | none => none
          | some (rr, rest3) => some (RE.alt (seqFold ts) rr, rest3)
      | some (ts, rest) => some (seqFold ts, rest)) =
      (match parseAlt g r2 with
        | none => none
        | some (rr, rest3) => some (RE.alt (seqFold ts) rr, rest3)) := rfl

lemma parseAltStep_notBar (g : ℕ) (ts : List RE) (sr : List Char)
    (hnb : ∀ r2, sr ≠ '|' :: r2) :
    (match (some (ts, sr) : Option (List RE × List Char)) with
      | none => none
      | some (ts, '|' :: rest2) =>
          match parseAlt g rest2 with
          | none => none
          | some (rr, rest3) => some (RE.alt (seqFold ts) rr, rest3)
      | some (ts, rest) => some (seqFold ts, rest)) =
      some (seqFold ts, sr) := by
  split
  case h_1 =>
      rename_i x heq
      cases heq
  case h_2 =>
      rename_i x ts2 rest2 heq
      simp only [Option.some_inj, Prod.mk.injEq] at heq
      exact absurd heq.2 (hnb rest2)
  case h_3 =>
      rename_i x1 ts2 rest2 g2 heq
      simp only [Option.some_inj, Prod.mk.injEq] at heq
      rw [← heq.1, ← heq.2]

lemma parseAlt_nilStops (f : ℕ) : nilStops (parseAlt f) := by
  intro r rest h
  cases f with
  | zero =>
      have h2 : (none : Option (RE × List Char)) = some (r, rest) := h
      cases h2
  | succ g =>
      have h2 : some (seqFold [], ([] : List Char)) = some (r, rest) := h
      simp only [Option.some_inj, Prod.mk.injEq] at h2
      exact h2.2.symm

lemma parseAlt_mono : ∀ (f1 f2 : ℕ), f1 ≤ f2 →
    leP (parseAlt f1) (parseAlt f2) := by
  intro f1
  induction f1 with
  | zero =>
      intro f2 hle cs out h
      have h2 : (none : Option (RE × List Char)) = some out := h
      cases h2
  | succ g1 ih =>
      intro f2 hle cs out h
      cases f2 with
      | zero => omega
      | succ g2 =>
          have hpw : leP (parseAlt g1) (parseAlt g2) := ih g2 (by omega)
          have hpw2 : leP (parseTermF (fun ds => parseAlt g1 ds))
              (parseTermF (fun ds => parseAlt g2 ds)) :=
            parseTermF_congr _ _ (fun a b hh => hpw a b hh)
          rw [parseAlt_succ] at h
          rw [parseAlt_succ]
          cases hps : parseSeqL (parseTermF (fun ds => parseAlt g1 ds))
              (cs.length + 1) cs with
          | none => rw [hps] at h; simp at h
          | some pr =>
              obtain ⟨ts, sr⟩ := pr
              rw [hps] at h
              rw [parseSeqL_congr _ _ hpw2 (cs.length + 1) cs (ts, sr) hps]
              cases sr with
              | nil => exact h
              | cons c1 r2 =>
                  by_cases hbar : c1 = '|'
                  · subst hbar
                    have h2 := (parseAltStep_bar g1 ts r2).symm.trans h
                    refine (parseAltStep_bar g2 ts r2).trans ?_
                    cases hr : parseAlt g1 r2 with
                    | none => rw [hr] at h2; simp at h2
                    | some out2 =>
                        rw [hr] at h2
                        rw [hpw r2 out2 hr]
                        exact h2
                  · have hnb : ∀ q, (c1 :: r2) ≠ '|' :: q :=
                      fun q hh => hbar (List.cons.inj hh).1
                    have h2 :=
                      (parseAltStep_notBar g1 ts (c1 :: r2) hnb).symm.trans h
                    exact (parseAltStep_notBar g2 ts (c1 :: r2) hnb).trans h2

lemma parseAlt_keepsTail : ∀ (f : ℕ), keepsTail (parseAlt f) := by
  intro f
  induction f with
  | zero =>
      intro cs s2 r c rest h
      have h2 : (none : Option (RE × List Char)) = some (r, c :: rest) := h
      cases h2
  | succ g ih =>
      intro cs s2 r c rest h
      have ktT : keepsTail (parseTermF (fun ds => parseAlt g ds)) :=
        parseTermF_keepsTail _ (fun a b d e f2 hh => ih a b d e f2 hh)
          (fun a b hh => parseAlt_nilStops g a b hh)
      rw [parseAlt_succ] at h
      rw [parseAlt_succ]
      cases hps : parseSeqL (parseTermF (fun ds => parseAlt g ds))
          (cs.length + 1) cs with
      | none => rw [hps] at h; simp at h
      | some pr =>
          obtain ⟨ts, sr⟩ := pr
          rw [hps] at h
          cases sr with
          | nil =>
              have h2 : some (seqFold ts, ([] : List Char)) =
                  some (r, c :: rest) := h
              simp at h2
          | cons c1 r2 =>
              have hkt := parseSeqL_keepsTail _ ktT s2 (cs.length + 1) cs
                ts c1 r2 hps
              have hmono := parseSeqL_mono _ (cs.length + 1)
                ((cs ++ s2).length + 1) (cs ++ s2) (ts, c1 :: (r2 ++ s2))
                (by simp) hkt
              rw [hmono]
              by_cases hbar : c1 = '|'
              · subst hbar
                have h2 := (parseAltStep_bar g ts r2).symm.trans h
                refine (parseAltStep_bar g ts (r2 ++ s2)).trans ?_
                cases hr : parseAlt g r2 with
                | none => rw [hr] at h2; simp at h2
                | some out2 =>
                    obtain ⟨rr, rest3⟩ := out2
                    rw [hr] at h2
                    simp only [Option.some_inj, Prod.mk.injEq] at h2
                    rw [h2.2] at hr
                    have hr2 := ih r2 s2 rr c rest hr
                    rw [hr2, ← h2.1]
              · have hnb : ∀ q, (c1 :: r2) ≠ '|' :: q :=
                  fun q hh => hbar (List.cons.inj hh).1
                have h2 :=
                  (parseAltStep_notBar g ts (c1 :: r2) hnb).symm.trans h
                simp only [Option.some_inj, Prod.mk.injEq,
                  List.cons.injEq] at h2
                have hnb2 : ∀ q, (c1 :: (r2 ++ s2)) ≠ '|' :: q :=
                  fun q hh => hbar (List.cons.inj hh).1
                refine (parseAltStep_notBar g ts (c1 :: (r2 ++ s2))
                  hnb2).trans ?_
                rw [h2.1, ← h2.2.1, ← h2.2.2]

lemma parseSeqL_replTerms (pAlt : List Char → Option (RE × List Char)) :
    ∀ (m : List Char), (∀ c ∈ m, plainChar c = true) →
    ∀ (fuel : ℕ), m.length ≤ fuel →
    parseSeqL (parseTermF pAlt) fuel (replDotHyphen m) =
      some (replTerms m, []) := by
  intro m
  induction m with
  | nil =>
      intro _ fuel _
      show parseSeqL (parseTermF pAlt) fuel [] = _
      rw [parseSeqL_nil]
      rfl
  | cons c m' ih =>
      intro hplain fuel hfuel
      have hplc : plainChar c = true := hplain c (List.mem_cons_self c m')
      have hplain' : ∀ d ∈ m', plainChar d = true := fun d hd =>
        hplain d (List.mem_cons_of_mem c hd)
      cases fuel with
      | zero => simp at hfuel
      | succ f =>
          have hfuel' : m'.length ≤ f := by
            simp only [List.length_cons] at hfuel
            omega
          by_cases hj : c = '-' ∨ c = '.'
          · have hneAl : c.isAlphanum = false := by
              rcases hj with hc | hc <;> subst hc <;> rfl
            have hrepl : replDotHyphen (c :: m') =
                '[' :: ' ' :: '\\' :: c :: ']' :: '?' ::
                  replDotHyphen m' := by
              show replUnit c ++ replDotHyphen m' = _
              rw [replUnit, if_pos hj]
              rfl
            have hc0 : parseCls (' ' :: '\\' :: c :: ']' :: '?' ::
                replDotHyphen m') =
                some ([ClsIt.ch ' ', ClsIt.ch c],
                  '?' :: replDotHyphen m') := by
              simp only [parseCls, hneAl]
              rfl
            have hat : parseAtomF pAlt ('[' :: ' ' :: '\\' :: c :: ']' ::
                '?' :: replDotHyphen m') =
                some (RE.cls false [ClsIt.ch ' ', ClsIt.ch c],
                  '?' :: replDotHyphen m') := by
              rw [parseAtomF_brNotCaret pAlt ' ' (by decide), hc0]
              rfl
            have hterm : parseTermF pAlt ('[' :: ' ' :: '\\' :: c :: ']' ::
                '?' :: replDotHyphen m') =
                some (RE.opt (RE.cls false [ClsIt.ch ' ', ClsIt.ch c]),
                  replDotHyphen m') := by
              simp only [parseTermF, hat]
            rw [hrepl]
            rw [parseSeqL_cons (parseTermF pAlt) f '[' _ (by decide)]
            rw [hterm]
            show (match parseSeqL (parseTermF pAlt) f
                  (replDotHyphen m') with
                | none => none
                | some (ts, r2) =>
                    some (RE.opt (RE.cls false
                      [ClsIt.ch ' ', ClsIt.ch c]) :: ts, r2)) =
              some (replTerms (c :: m'), [])
            rw [ih hplain' f hfuel']
            show some (RE.opt (RE.cls false [ClsIt.ch ' ', ClsIt.ch c]) ::
              replTerms m', []) = some (replTerms (c :: m'), [])
            rw [show replTerms (c :: m') =
              replTerm c :: replTerms m' from rfl]
            rw [show replTerm c = RE.opt (RE.cls false
              [ClsIt.ch ' ', ClsIt.ch c]) from by rw [replTerm, if_pos hj]]
          · have hrepl : replDotHyphen (c :: m') =
                c :: replDotHyphen m' := by
              show replUnit c ++ replDotHyphen m' = _
              rw [replUnit, if_neg hj]
              rfl
            have h1 : ¬(c = '(') := plain_ne hplc (by decide)
            have h2 : ¬(c = '[') := plain_ne hplc (by decide)
            have h3 : ¬(c = '\\') := plain_ne hplc (by decide)
            have h4 : ¬(c = '^') := plain_ne hplc (by decide)
            have h5 : ¬(c = '$') := plain_ne hplc (by decide)
            have h6 : ¬(c = '.') := fun hh => hj (Or.inr hh)
            have hcond : ¬(isQuant c = true ∨ c = ')' ∨ c = '|' ∨
                c = '\\') := by
              simp [plain_not_quant hplc, plain_ne hplc
                (show plainChar ')' = false by decide), plain_ne hplc
                (show plainChar '|' = false by decide), h3]
            have hat : parseAtomF pAlt (c :: replDotHyphen m') =
                some (RE.lit c, replDotHyphen m') := by
              rw [parseAtomF_other pAlt c (replDotHyphen m')
                h1 h2 h3 h4 h5 h6, if_neg hcond]
            have hterm := parseTermF_noQuant pAlt (c :: replDotHyphen m')
              (RE.lit c) (replDotHyphen m') hat
              (replDotHyphen_headNQ m' hplain')
            rw [hrepl]
            rw [parseSeqL_cons (parseTermF pAlt) f c _
              (plain_not_stop hplc)]
            rw [hterm]
            show (match parseSeqL (parseTermF pAlt) f
                  (replDotHyphen m') with
                | none => none
                | some (ts, r2) => some (RE.lit c :: ts, r2)) =
              some (replTerms (c :: m'), [])
            rw [ih hplain' f hfuel']
            show some (RE.lit c :: replTerms m', []) =
              some (replTerms (c :: m'), [])
            rw [show replTerms (c :: m') =
              replTerm c :: replTerms m' from rfl]
            rw [show replTerm c = RE.lit c from by rw [replTerm, if_neg hj]]

lemma srcTerms_eq (s : String) (ts : List RE) (h : srcTerms s = some ts) :
    parseSeqL (parseTermF (fun ds => parseAlt s.length ds))
      (s.data.length + 1) s.data = some (ts, []) := by
  rw [srcTerms] at h
  split at h
  case h_1 ts2 heq =>
      simp only [Option.some_inj] at h
      rw [← h]
      exact heq
  case h_2 => cases h

lemma parseRegex_of_srcTerms (s : String) (ts : List RE)
    (h : srcTerms s = some ts) : parseRegex s = some (seqFold ts) := by
  have h1 := srcTerms_eq s ts h
  have hPA : parseAlt (s.length + 1) s.data = some (seqFold ts, []) := by
    rw [parseAlt_succ s.length s.data, h1]
  simp only [parseRegex]
  rw [hPA]

lemma parseRegex_eval (l : List Char) (r : RE)
    (h : parseAlt (l.length + 1) l = some (r, [])) :
    parseRegex ⟨l⟩ = some r := by
  show (match parseAlt (l.length + 1) l with
    | some (r, []) => some r
    | _ => none) = some r
  rw [h]

lemma allFirstSrcsGood : firstNameSrcs.all goodFirstSrc = true := by decide

lemma goodFirstSrc_unpack (s : String) (h : goodFirstSrc s = true) :
    ∃ ts', srcTerms s = some (RE.bol :: ts') ∧
      noEol (seqFold (RE.bol :: ts')) = true ∧
      noStar (seqFold (RE.bol :: ts')) = true ∧
      reLitsGood (seqFold (RE.bol :: ts')) = true := by
  rw [goodFirstSrc] at h
  split at h
  case h_2 => cases h
  case h_1 ts heq =>
      simp only [Bool.and_eq_true] at h
      obtain ⟨⟨⟨hbol, hEol⟩, hStar⟩, hLits⟩ := h
      cases ts with
      | nil => cases hbol
      | cons t ts' =>
          cases t with
          | bol => exact ⟨ts', heq, hEol, hStar, hLits⟩
          | eps => cases hbol
          | lit c => cases hbol
          | cls n its => cases hbol
          | dot => cases hbol
          | eol => cases hbol
          | seq a b => cases hbol
          | alt a b => cases hbol
          | opt a => cases hbol
          | star a => cases hbol

lemma expandFirst_spec : ∀ (fs : List String) (pat newPat : List Char),
    expandFirst fs pat = some newPat →
    ∃ (fsrc : String) (fr : RE) (p nn : ℕ),
      fsrc ∈ fs ∧ parseRegex fsrc = some fr ∧
      reSearchPos fr pat = some (p, nn) ∧
      newPat = pat.take p ++ fsrc.data ++ pat.drop (p + nn) := by
  intro fs
  induction fs with
  | nil => intro pat newPat h; cases h
  | cons fsrc fs' ih =>
      intro pat newPat h
      rw [expandFirst] at h
      cases hpr : parseRegex fsrc with
      | none =>
          rw [hpr] at h
          obtain ⟨f2, fr, p, nn, hmem, h1, h2, h3⟩ := ih pat newPat h
          exact ⟨f2, fr, p, nn, List.mem_cons_of_mem fsrc hmem,
            h1, h2, h3⟩
      | some fr =>
          rw [hpr] at h
          have h2 : (match reSearchPos fr pat with
              | some (p, n) =>
                  some (pat.take p ++ fsrc.data ++ pat.drop (p + n))
              | none => expandFirst fs' pat) = some newPat := h
          cases hse : reSearchPos fr pat with
          | none =>
              rw [hse] at h2
              obtain ⟨f2, fr2, p, nn, hmem, ha, hb, hc⟩ := ih pat newPat h2
              exact ⟨f2, fr2, p, nn, List.mem_cons_of_mem fsrc hmem,
                ha, hb, hc⟩
          | some pr =>
              obtain ⟨p, nn⟩ := pr
              rw [hse] at h2
              simp only [Option.some_inj] at h2
              exact ⟨fsrc, fr, p, nn, List.mem_cons_self fsrc fs',
                hpr, hse, h2.symm⟩

lemma reSearchPos_isSome_of_run (r : RE) (cs : List Char)
    (h : reRun r 0 cs ≠ []) : (reSearchPos r cs).isSome = true := by
  cases cs with
  | nil =>
      rw [reSearchPos, searchFrom]
      cases hrun : reRun r 0 [] with
      | nil => exact absurd hrun h
      | cons q0 rest => simp
  | cons c t =>
      rw [reSearchPos, searchFrom]
      cases hrun : reRun r 0 (c :: t) with
      | nil => exact absurd hrun h
      | cons q0 rest => simp

lemma parseSeqL_caretRepl (pAlt : List Char → Option (RE × List Char))
    (m : List Char) (hplain : ∀ c ∈ m, plainChar c = true)
    (f : ℕ) (hf : m.length ≤ f) :
    parseSeqL (parseTermF pAlt) (f + 1) ('^' :: replDotHyphen m) =
      some (RE.bol :: replTerms m, []) := by
  rw [parseSeqL_cons (parseTermF pAlt) f '^' (replDotHyphen m) rfl]
  have hat : parseAtomF pAlt ('^' :: replDotHyphen m) =
      some (RE.bol, replDotHyphen m) := rfl
  have hterm := parseTermF_noQuant pAlt ('^' :: replDotHyphen m) RE.bol
    (replDotHyphen m) hat (replDotHyphen_headNQ m hplain)
  rw [hterm]
  show (match parseSeqL (parseTermF pAlt) f (replDotHyphen m) with
      | none => none
      | some (ts, r2) => some (RE.bol :: ts, r2)) =
    some (RE.bol :: replTerms m, [])
  rw [parseSeqL_replTerms pAlt m hplain f hf]

lemma parseRegex_caretRepl (m : List Char)
    (hplain : ∀ c ∈ m, plainChar c = true) :
    parseRegex ⟨'^' :: replDotHyphen m⟩ =
      some (seqFold (RE.bol :: replTerms m)) := by
  apply parseRegex_eval
  rw [parseAlt_succ]
  rw [show ('^' :: replDotHyphen m).length + 1 =
    ((replDotHyphen m).length + 1) + 1 from by simp]
  rw [parseSeqL_caretRepl
    (fun ds => parseAlt ('^' :: replDotHyphen m).length ds) m hplain
    ((replDotHyphen m).length + 1)
    (Nat.le_trans (replDotHyphen_len_ge m) (Nat.le_succ _))]

lemma parseRegex_expand (fsrc : String) (ts_f : List RE) (m2 : List Char)
    (hsrc : srcTerms fsrc = some ts_f)
    (hplain : ∀ c ∈ m2, plainChar c = true) :
    parseRegex ⟨fsrc.data ++ replDotHyphen m2⟩ =
      some (seqFold (ts_f ++ replTerms m2)) := by
  apply parseRegex_eval
  rw [parseAlt_succ]
  have hup : leP (parseAlt fsrc.length)
      (parseAlt (fsrc.data ++ replDotHyphen m2).length) := by
    apply parseAlt_mono
    rw [show fsrc.length = fsrc.data.length from rfl,
      List.length_append]
    omega
  have hP1 : parseSeqL (parseTermF
      (fun ds => parseAlt (fsrc.data ++ replDotHyphen m2).length ds))
      (fsrc.data.length + 1) fsrc.data = some (ts_f, []) :=
    parseSeqL_congr _ _
      (parseTermF_congr _ _ (fun a b hh => hup a b hh))
      (fsrc.data.length + 1) fsrc.data (ts_f, [])
      (srcTerms_eq fsrc ts_f hsrc)
  have kt : keepsTail (parseTermF
      (fun ds => parseAlt (fsrc.data ++ replDotHyphen m2).length ds)) :=
    parseTermF_keepsTail _
      (fun a b d e f2 hh =>
        parseAlt_keepsTail (fsrc.data ++ replDotHyphen m2).length
          a b d e f2 hh)
      (fun a b hh =>
        parseAlt_nilStops (fsrc.data ++ replDotHyphen m2).length a b hh)
  have nk := parseTermF_nilKeep
    (fun ds => parseAlt (fsrc.data ++ replDotHyphen m2).length ds)
    (fun a b d e f2 hh =>
      parseAlt_keepsTail (fsrc.data ++ replDotHyphen m2).length
        a b d e f2 hh)
    (fun a b hh =>
      parseAlt_nilStops (fsrc.data ++ replDotHyphen m2).length a b hh)
    (replDotHyphen m2) (replDotHyphen_headNQ m2 hplain)
  have happ := parseSeqL_append _ (replDotHyphen m2) kt nk
    (fsrc.data.length + 1) fsrc.data ts_f hP1 m2.length (replTerms m2) []
    (parseSeqL_replTerms _ m2 hplain m2.length (Nat.le_refl _))
  have hmono := parseSeqL_mono _ (fsrc.data.length + 1 + m2.length)
    ((fsrc.data ++ replDotHyphen m2).length + 1)
    (fsrc.data ++ replDotHyphen m2) (ts_f ++ replTerms m2, [])
    (by
      rw [List.length_append]
      have := replDotHyphen_len_ge m2
      omega) happ
  rw [hmono]

lemma reRun_caretRepl_match (m : List Char) :
    (0 + m.length, ([] : List Char)) ∈
      reRun (seqFold (RE.bol :: replTerms m)) 0 m := by
  have hb : (0, m) ∈ reRun RE.bol 0 m := by simp [reRun]
  have hrest := replTerms_match m 0
  have hcomp := reRun_seq_mem hb hrest
  show _ ∈ reRun (seqFold (RE.bol :: replTerms m)) 0 m
  simp only [seqFold, List.foldr_cons]
  exact hcomp

lemma namesMatch_true_of (a b : String) (r : RE)
    (h1 : nameToRegex (asciiFold b) = some r)
    (h2 : (reSearchPos r (asciiFold a).data).isSome = true) :
    namesMatch a b = some true := by
  simp only [namesMatch, h1, h2, if_true]

lemma nameToRegex_plain_search (a : String)
    (hov : overrideSrc a = none)
    (hplain : ∀ c ∈ a.data, plainChar c = true) :
    ∃ r, nameToRegex a = some r ∧
      (reSearchPos r a.data).isSome = true := by
  rw [nameToRegex, hov]
  cases hex : expandFirst firstNameSrcs (replDotHyphen a.data) with
  | none =>
      have hbp : buildPatternString a = '^' :: replDotHyphen a.data := by
        simp only [buildPatternString, hex]
      rw [hbp]
      refine ⟨seqFold (RE.bol :: replTerms a.data),
        parseRegex_caretRepl a.data hplain, ?_⟩
      exact reSearchPos_isSome_of_run _ _
        (List.ne_nil_of_mem (reRun_caretRepl_match a.data))
  | some newPat =>
      have hbp : buildPatternString a = newPat := by
        simp only [buildPatternString, hex]
      rw [hbp]
      obtain ⟨fsrc, fr, p, nn, hmem, hpr, hse, hnp⟩ :=
        expandFirst_spec firstNameSrcs (replDotHyphen a.data) newPat hex
      have hgood : goodFirstSrc fsrc = true := by
        have hall := allFirstSrcsGood
        rw [List.all_eq_true] at hall
        exact hall fsrc hmem
      obtain ⟨ts', hsrc, hEol, hStar, hLits⟩ :=
        goodFirstSrc_unpack fsrc hgood
      have hfr : fr = seqFold (RE.bol :: ts') := by
        have h2 := parseRegex_of_srcTerms fsrc (RE.bol :: ts') hsrc
        rw [hpr] at h2
        exact Option.some_inj.mp h2
      subst hfr
      obtain ⟨q, rem, rest, hrun, hpnn⟩ := reSearchPos_bol_some _
        (reRun_bolHead_empty ts') (replDotHyphen a.data) (p, nn) hse
      simp only [Prod.mk.injEq] at hpnn
      obtain ⟨hp0, hnn⟩ := hpnn
      have hmem0 : (q, rem) ∈ reRun (seqFold (RE.bol :: ts')) 0
          (replDotHyphen a.data) := by
        rw [hrun]
        exact List.mem_cons_self _ _
      obtain ⟨pre, hpre, hq⟩ :=
        reRun_suffix (seqFold (RE.bol :: ts')) 0
          (replDotHyphen a.data) q rem hmem0
      have hlenpre : pre.length =
          (replDotHyphen a.data).length - rem.length := by
        rw [hpre]
        simp
      have hgoodpre : ∀ ch ∈ pre, goodChar ch = true := by
        intro ch hch
        exact reRun_consumed (seqFold (RE.bol :: ts')) hLits hStar 0
          pre rem q (by rw [← hpre]; exact hmem0) ch hch
      obtain ⟨m1, m2, hm, hprem1, hrem⟩ :=
        repl_split a.data pre rem hplain hpre hgoodpre
      have hframe := reRun_frame (seqFold (RE.bol :: ts')) hEol hStar 0
        pre rem m2 q (by rw [← hpre]; exact hmem0)
      have hm2plain : ∀ c ∈ m2, plainChar c = true := by
        intro c hc
        exact hplain c (by rw [hm]; exact List.mem_append_right m1 hc)
      have hrt := replTerms_match m2 (0 + pre.length)
      have hfull := seqFold_mem_append (RE.bol :: ts') (replTerms m2) 0
        (pre ++ m2) (0 + pre.length) m2 (0 + pre.length + m2.length) []
        hframe hrt
      have hnn2 : nn = pre.length := by omega
      have hnewPat : newPat = fsrc.data ++ replDotHyphen m2 := by
        rw [hnp, hp0, hnn2, hpre, hrem]
        simp [List.drop_left]
      rw [hnewPat]
      refine ⟨seqFold ((RE.bol :: ts') ++ replTerms m2),
        parseRegex_expand fsrc (RE.bol :: ts') m2 hsrc hm2plain, ?_⟩
      apply reSearchPos_isSome_of_run
      apply List.ne_nil_of_mem
      show (0 + pre.length + m2.length, ([] : List Char)) ∈ _
      rw [hm, ← hprem1]
      exact hfull

/-- C4 (amended): reflexivity of namesMatch after folding holds for every
name whose folded form consists only of the plain name characters (ASCII
letters, digits, space, hyphen, period); the original claim fails on
names carrying pattern metacharacters, as the counterexample shows. -/
theorem C4_reflexivity_amended (n : String)
    (hp : (asciiFold n).data.all plainChar = true) :
    namesMatch (asciiFold n) (asciiFold n) = some true := by
  have hid : asciiFold (asciiFold n) = asciiFold n := asciiFold_idem n
  have hplain : ∀ c ∈ (asciiFold n).data, plainChar c = true := by
    rw [List.all_eq_true] at hp
    exact hp
  by_cases h1 : asciiFold n = "Corey Brown"
  · rw [h1]
    decide
  · by_cases h2 : asciiFold n = "Pierre-Alexandr Parenteau"
    · rw [h2]
      decide
    · by_cases h3 : asciiFold n = "Carl Edwards Jr."
      · rw [h3]
        decide
      · by_cases h4 : asciiFold n = "Adalberto Mondesi"
        · rw [h4]
          decide
        · by_cases h5 : asciiFold n = "Michael A. Taylor"
          · rw [h5]
            decide
          · by_cases h6 : asciiFold n = "Mychal Givens"
            · rw [h6]
              decide
            · have hov : overrideSrc (asciiFold n) = none := by
                rw [overrideSrc, if_neg h1, if_neg h2, if_neg h3,
                  if_neg h4, if_neg h5, if_neg h6]
              obtain ⟨r, hr, hs⟩ :=
                nameToRegex_plain_search (asciiFold n) hov hplain
              refine namesMatch_true_of (asciiFold n) (asciiFold n) r ?_ ?_
              · rw [hid]
                exact hr
              · rw [hid]
                exact hs

/-- Witness for C4 (amended) at the concrete name Mike Trout, whose folded
form is plain. -/
theorem C4_reflexivity_amended_witness :
    (asciiFold "Mike Trout").data.all plainChar = true ∧
    namesMatch (asciiFold "Mike Trout") (asciiFold "Mike Trout") =
      some true :=
  ⟨by decide, C4_reflexivity_amended "Mike Trout" (by decide)⟩
